import Mathlib

/-!
# Verification of the dice-tray face-mapping and result-detection engine

A shallow embedding, in Lean 4, of the core of the `dice.roller` repository:

* `src/convex.ts` — mesh indexing (`getIndexArray`), convex-hull extraction
  (`geometryToConvexArgs`) and the default normal-quantization face grouping
  (`buildFaceGroups`);
* `src/die-types.ts` — the outward-winding correction pass
  (`orientTrianglesOutward`), the pentagonal-trapezohedron geometry
  (`geomD10_TealFull`) and its specialized face grouper
  (`buildD10Groups_Teal`), and the die-type registry constants;
* `src/Die.tsx` — the polling settle detector of the `Die` component;
* `src/DiceApp.tsx` — the tray orchestrator (`addDie`, `onTopValue`,
  `resultsReady`, `resultsList`, phase handling).

Modelling conventions:

* JavaScript `number`s that carry geometry are idealized as exact rationals
  (`ℚ`); quantities that are only compared or used as container indices are
  `ℕ`/`ℤ`.  `Uint16Array` stores are modelled with an explicit `% 65536`.
* A JS `Map` is an association list; JS `Map` lookup semantics (get by key,
  first/only binding wins since keys are only inserted when absent) are
  preserved.
* Exceptions (`throw new Error(...)`, and the `TypeError` raised by
  destructuring `undefined`) are modelled with `Except String`.
* A `THREE.BufferGeometry` is a `position` attribute that may be absent and
  an optional index; both the indexed and the non-indexed (triangle-soup)
  cases occur in the repository and are modelled faithfully.
-/

/-! ## Rational 3-vectors -/

/-- A 3D point/vector with exact rational coordinates (idealizing JS floats). -/
abbrev Vec3 : Type := ℚ × ℚ × ℚ

def vsub (a b : Vec3) : Vec3 := (a.1 - b.1, a.2.1 - b.2.1, a.2.2 - b.2.2)

def vadd (a b : Vec3) : Vec3 := (a.1 + b.1, a.2.1 + b.2.1, a.2.2 + b.2.2)

def vsmul (q : ℚ) (a : Vec3) : Vec3 := (q * a.1, q * a.2.1, q * a.2.2)

/-- Cross product, as in `THREE.Vector3.cross`. -/
def vcross (a b : Vec3) : Vec3 :=
  ( a.2.1 * b.2.2 - a.2.2 * b.2.1
  , a.2.2 * b.1 - a.1 * b.2.2
  , a.1 * b.2.1 - a.2.1 * b.1 )

/-- Dot product, as in `THREE.Vector3.dot`. -/
def vdot (a b : Vec3) : ℚ := a.1 * b.1 + a.2.1 * b.2.1 + a.2.2 * b.2.2

/-! ## Geometry and the mesh indexer (`src/convex.ts`, `getIndexArray`) -/

/-- A `THREE.BufferGeometry` as the repository uses it: an optional
`position` attribute (list of vertex points) and an optional triangle
index.  `position = none` models a geometry without a position attribute. -/
structure Geometry where
  position : Option (List Vec3)
  index : Option (List ℕ)

/-- `getIndexArray` (src/convex.ts): return the existing index, or
synthesize the identity index `[0, …, pos.count − 1]` for a non-indexed
geometry; throws when the geometry has no position attribute. -/
def getIndexArray (g : Geometry) : Except String (List ℕ) :=
  match g.index with
  | some idx => .ok idx
  | none =>
    match g.position with
    | some pos => .ok (List.range pos.length)
    | none => .error "Geometry has no position attribute."

/-- Fetch vertex `i` of a position list.  JS reads out of bounds yield
`undefined`/NaN; all verified runs stay in bounds, where the default is
never consulted. -/
def getVert (pos : List Vec3) (i : ℕ) : Vec3 := pos.getD i (0, 0, 0)

/-! ## The specialized d10 grouper (`src/die-types.ts`, `buildD10Groups_Teal`)

The JS grouping key is the string `` `${x}_${y}` `` where `x`, `y` are the
results of `(a + 10) % 10` — a number in `0..9`, or `NaN` when the input was
`undefined` (an out-of-range array access).  We model such a component as
`Option ℕ` (`none` = `NaN`); the string representation is injective on these
values, so the pair is a faithful model of the string key. -/

/-- A d10 grouping key: two ring indices mod 10, either of which may be the
JS `NaN` (modelled `none`). -/
abbrev D10Key : Type := Option ℕ × Option ℕ

/-- `keyForPair` (src/die-types.ts lines 177-182).  JS `<` on `NaN` is
false, so when either side is `NaN` the branch `[j, i]` is taken. -/
def keyForPair (a b : Option ℕ) : D10Key :=
  let i := a.map (fun x => (x + 10) % 10)
  let j := b.map (fun x => (x + 10) % 10)
  match i, j with
  | some x, some y => if x < y then (some x, some y) else (some y, some x)
  | _, _ => (j, i)

/-- Mutable state of `buildD10Groups_Teal`: the group list (each group's
`triIndices`), the `keyToIndex` map, and the `triToGroup` array
(`Uint16Array` initialized with the sentinel `0xffff`). -/
structure D10State where
  groups : List (List ℕ)
  keyToIndex : List (D10Key × ℕ)
  triToGroup : List ℕ

/-- JS `Map.get` on an association list mapping keys to indices (used for
`keyToIndex` of the d10 grouper and `vertMap` of the hull extractor). -/
def assocFind {κ : Type} [DecidableEq κ] (k : κ) : List (κ × ℕ) → Option ℕ
  | [] => none
  | (k', v) :: rest => if k' = k then some v else assocFind k rest

/-- `addTriToGroup` (src/die-types.ts lines 188-201): find or create the
group of `key`, then record the membership both ways.  The `Uint16Array`
store keeps the low 16 bits of the group index. -/
def addTriToGroup (st : D10State) (t : ℕ) (key : D10Key) : D10State :=
  match assocFind key st.keyToIndex with
  | some gi =>
    { st with
      groups := st.groups.set gi (st.groups.getD gi [] ++ [t])
      triToGroup := st.triToGroup.set t (gi % 65536) }
  | none =>
    let gi := st.groups.length
    { groups := st.groups ++ [[t]]
      keyToIndex := st.keyToIndex ++ [(key, gi)]
      triToGroup := st.triToGroup.set t (gi % 65536) }

/-- The triangle `t` of a flat index array. -/
def triAt (index : List ℕ) (t : ℕ) : ℕ × ℕ × ℕ :=
  (index.getD (t * 3) 0, index.getD (t * 3 + 1) 0, index.getD (t * 3 + 2) 0)

/-- `hasApex` of pass 1 (src/die-types.ts line 210): does the triangle
contain the top (11) or bottom (10) apex vertex index? -/
def d10HasApex (tri : ℕ × ℕ × ℕ) : Bool :=
  [tri.1, tri.2.1, tri.2.2].contains 11 || [tri.1, tri.2.1, tri.2.2].contains 10

/-- The pass-1 key (src/die-types.ts lines 212-213): filter the triangle to
its ring-vertex indices (`< 10`) and key by the first two — `ringVerts[1]`
is `undefined`/NaN when fewer than two entries survive the filter. -/
def d10Pass1Key (tri : ℕ × ℕ × ℕ) : D10Key :=
  let ringVerts := [tri.1, tri.2.1, tri.2.2].filter (fun v => v < 10)
  keyForPair (ringVerts.get? 0) (ringVerts.get? 1)

/-- The directed edges of pass 2 whose ring-index difference is 2 mod 10
(or equivalently 8), in source order (src/die-types.ts lines 225-232). -/
def d10Pairs (tri : ℕ × ℕ × ℕ) : List (ℕ × ℕ) :=
  [(tri.1, tri.2.1), (tri.2.1, tri.2.2), (tri.2.2, tri.1)].filter
    (fun p => ((p.1 : ℤ) - (p.2 : ℤ)).natAbs % 10 = 2 ∨
              ((p.1 : ℤ) - (p.2 : ℤ)).natAbs % 10 = 8)

/-- The pass-2 key: `pairs[0]`, keyed.  `none` models the JS `TypeError`
of destructuring `pairs[0]` when no edge qualifies. -/
def d10Pass2Key (tri : ℕ × ℕ × ℕ) : Option D10Key :=
  (d10Pairs tri).head?.map (fun p => keyForPair (some p.1) (some p.2))

/-- Pass 1 body (src/die-types.ts lines 204-216). -/
def d10Pass1Step (index : List ℕ) (st : D10State) (t : ℕ) : D10State :=
  let tri := triAt index t
  if d10HasApex tri then addTriToGroup st t (d10Pass1Key tri) else st

/-- Pass 2 body (src/die-types.ts lines 219-236): skip triangles already
grouped, otherwise assign by the first qualifying edge; destructuring the
head of an empty `pairs` list raises a `TypeError`, modelled as an error
result. -/
def d10Pass2Step (index : List ℕ) (st : D10State) (t : ℕ) :
    Except String D10State :=
  if st.triToGroup.getD t 65535 ≠ 65535 then .ok st
  else
    match d10Pass2Key (triAt index t) with
    | none => .error "TypeError: pairs[0] is undefined (no qualifying edge)"
    | some key => .ok (addTriToGroup st t key)

/-- `buildD10Groups_Teal` (src/die-types.ts lines 166-273), group-membership
core.  The final loop of the source (lines 238-270) only fills each group's
`center`/`normal` fields from the positions; it neither alters any group's
`triIndices` nor `triToGroup` nor the number of groups, so the returned
pair `(triIndices of each group, triToGroup)` is exactly the grouping data
of the source. -/
def buildD10Groups_Teal (g : Geometry) :
    Except String (List (List ℕ) × List ℕ) :=
  match getIndexArray g with
  | .error e => .error e
  | .ok index =>
    let triCount := index.length / 3
    if triCount ≠ 20 then
      .error "D10 should have 20 triangles (10 apex + 10 belt)."
    else
      let st0 : D10State :=
        { groups := [], keyToIndex := []
          triToGroup := List.replicate triCount 65535 }
      let st1 := (List.range triCount).foldl (d10Pass1Step index) st0
      match (List.range triCount).foldlM (d10Pass2Step index) st1 with
      | .error e => .error e
      | .ok st2 => .ok (st2.groups, st2.triToGroup)

/-! ## The d10 geometry (`src/die-types.ts`, `geomD10_TealFull`)

`geomD10_TealFull` builds its 20 triangles as an **unindexed triangle
soup**: for each triple of the `tris` table it pushes the three vertex
points, producing a `position` attribute with `20 × 3 = 60` entries and no
index.  `orientTrianglesOutward` then synthesizes the identity index
`[0, …, 59]`, swaps the second and third slot of any triangle whose normal
points inward, and installs that index via `setIndex` (the subsequent
`toNonIndexed()` allocates a new geometry whose result is discarded, so the
index stays installed).

For this construction no swap occurs: every triangle `(A, B, C)` of the
table already satisfies `det(A, B, C) > 0` (the sign of `normal ⋅ centroid`
equals the sign of that determinant), the determinants being bounded away
from zero (≈ 0.22 and ≈ 0.95 before normalization) so `Float32` rounding
cannot flip them.  The flat index reaching `buildD10Groups_Teal` is
therefore exactly `[0, …, 59]`.  (`d10Soup_swap_invariant` below shows the
grouping would be unchanged even if some triangles had been swapped.)

The coordinates themselves are irrational (`cos`/`sin` of multiples of
36°); the grouping passes never read them, so the geometry is modelled with
an arbitrary position list of length 60. -/

/-- The flat index of the d10 triangle soup seen by `buildD10Groups_Teal`. -/
def d10SoupIndex : List ℕ := List.range 60

/-- The d10 geometry after `orientTrianglesOutward`, with its 60 soup
positions abstracted (the grouper never reads them). -/
def d10Geom (pos : List Vec3) : Geometry :=
  { position := some pos, index := some d10SoupIndex }

/-- The `tris` table of `geomD10_TealFull` (src/die-types.ts lines 119-142)
flattened: the logical shared-vertex indexing (ring vertices `0..9`, bottom
apex `10`, top apex `11`) that the grouper's keys were written for.  The
geometry builder does **not** install this as an index — it expands it into
the soup — but the table documents the intended structure: triangles `0..9`
are the apex (numbered) faces, triangles `10..19` the belt. -/
def d10LogicalIndex : List ℕ :=
  [ 5, 7, 11,  4, 2, 10,  1, 3, 11,  0, 8, 10,  7, 9, 11,
    8, 6, 10,  9, 1, 11,  2, 0, 10,  3, 5, 11,  6, 4, 10,
    1, 0, 2,   1, 2, 3,   3, 2, 4,   3, 4, 5,   5, 4, 6,
    5, 6, 7,   7, 6, 8,   7, 8, 9,   9, 8, 0,   9, 0, 1 ]

example : d10LogicalIndex.length = 60 := by decide

example :
    (buildD10Groups_Teal (d10Geom [])).toOption.map (fun r => r.1.length) =
      some 11 := by decide

example :
    (buildD10Groups_Teal
        { position := some [], index := some d10LogicalIndex }).toOption.map
        (fun r => r.1.map List.length) =
      some [2, 2, 2, 2, 2, 2, 2, 2, 2, 2] := by decide

example :
    (buildD10Groups_Teal (d10Geom [])).toOption.map (fun r => r.1) =
      some [[3], [0, 10], [1, 11], [2, 12], [4, 14], [5, 15], [6, 16],
            [7, 17], [8, 18], [9, 19], [13]] := by decide

/-! ### Invariance of the grouping under winding swaps

`orientTrianglesOutward` may replace the triple `(3t, 3t+1, 3t+2)` of a
soup triangle by `(3t, 3t+2, 3t+1)`.  For the d10 construction no triangle
is actually swapped (every triple already winds outward), but the lemmas
below show the grouping result does not depend on it either way, so the
theorems about `d10SoupIndex` hold for the geometry regardless. -/

/-- The d10 soup index with an arbitrary choice of winding swap per
triangle, as `orientTrianglesOutward` could have produced it. -/
def d10SoupIndexSwapped (s : ℕ → Bool) : List ℕ :=
  (List.range 20).flatMap (fun t =>
    if s t then [3 * t, 3 * t + 2, 3 * t + 1] else [3 * t, 3 * t + 1, 3 * t + 2])

theorem getD_flatMap_chunk3 {α : Type} (f : α → List ℕ)
    (h3 : ∀ i, (f i).length = 3) (l : List α) (d : α) (t k : ℕ)
    (hk : k < 3) (ht : t < l.length) :
    (l.flatMap f).getD (3 * t + k) 0 = (f (l.getD t d)).getD k 0 := by
  induction l generalizing t with
  | nil => simp at ht
  | cons a l ih =>
    rw [List.flatMap_cons]
    cases t with
    | zero =>
      rw [List.getD_append _ _ _ _ (by rw [h3]; omega)]
      simp
    | succ t =>
      rw [List.getD_append_right _ _ _ _ (by rw [h3]; omega), h3]
      have : 3 * (t + 1) + k - 3 = 3 * t + k := by ring_nf; omega
      rw [this, ih t (by simpa using ht)]
      simp

theorem triAt_d10SoupIndexSwapped (s : ℕ → Bool) (t : ℕ) (ht : t < 20) :
    triAt (d10SoupIndexSwapped s) t =
      (if s t then (3 * t, 3 * t + 2, 3 * t + 1)
       else (3 * t, 3 * t + 1, 3 * t + 2)) := by
  have h3 : ∀ i, (List.length
      (if s i then [3 * i, 3 * i + 2, 3 * i + 1]
       else [3 * i, 3 * i + 1, 3 * i + 2])) = 3 := by
    intro i; by_cases h : s i <;> simp [h]
  have hr : (List.range 20).getD t 0 = t := by
    rw [List.getD_eq_getElem _ _ (by simpa using ht)]; simp
  have h0 := getD_flatMap_chunk3 _ h3 (List.range 20) 0 t 0 (by omega) (by simpa using ht)
  have h1 := getD_flatMap_chunk3 _ h3 (List.range 20) 0 t 1 (by omega) (by simpa using ht)
  have h2 := getD_flatMap_chunk3 _ h3 (List.range 20) 0 t 2 (by omega) (by simpa using ht)
  rw [hr] at h0 h1 h2
  unfold triAt d10SoupIndexSwapped
  rw [show t * 3 = 3 * t + 0 by ring, show 3 * t + 0 + 1 = 3 * t + 1 by ring,
    show 3 * t + 1 + 1 = 3 * t + 2 by ring, h0, h1, h2]
  by_cases h : s t <;> simp [h]

theorem d10SoupIndexSwapped_length (s : ℕ → Bool) :
    (d10SoupIndexSwapped s).length = 60 := by
  unfold d10SoupIndexSwapped
  rw [List.length_flatMap]
  have : (List.range 20).map (List.length ∘ (fun t =>
      (if s t then [3 * t, 3 * t + 2, 3 * t + 1]
       else [3 * t, 3 * t + 1, 3 * t + 2]))) = List.replicate 20 3 := by
    apply List.eq_replicate_of_mem
    intro a ha
    simp only [List.mem_map, Function.comp] at ha
    obtain ⟨t, _, rfl⟩ := ha
    by_cases h : s t <;> simp [h]
  rw [this]; simp

/-- Both passes only consult a triangle through `d10HasApex`,
`d10Pass1Key` (only when the apex test succeeded) and `d10Pass2Key`, and
for every triple of the d10 soup these agree between the swapped and the
unswapped winding. -/
theorem d10TriData_swap_invariant :
    ∀ t < 20,
      d10HasApex (3 * t, 3 * t + 2, 3 * t + 1) =
        d10HasApex (3 * t, 3 * t + 1, 3 * t + 2) ∧
      (d10HasApex (3 * t, 3 * t + 1, 3 * t + 2) = true →
        d10Pass1Key (3 * t, 3 * t + 2, 3 * t + 1) =
          d10Pass1Key (3 * t, 3 * t + 1, 3 * t + 2)) ∧
      d10Pass2Key (3 * t, 3 * t + 2, 3 * t + 1) =
        d10Pass2Key (3 * t, 3 * t + 1, 3 * t + 2) := by decide

theorem triAt_d10SoupIndex (t : ℕ) (ht : t < 20) :
    triAt d10SoupIndex t = (3 * t, 3 * t + 1, 3 * t + 2) := by
  have h : d10SoupIndex = d10SoupIndexSwapped (fun _ => false) := by decide
  rw [h, triAt_d10SoupIndexSwapped _ _ ht]; simp

/-- The grouper computes the same result on the d10 soup no matter which
triangles the winding-correction pass happened to swap. -/
theorem d10Soup_swap_invariant (s : ℕ → Bool) (pos pos' : List Vec3) :
    buildD10Groups_Teal { position := some pos
                          index := some (d10SoupIndexSwapped s) } =
      buildD10Groups_Teal (d10Geom pos') := by
  have hstep1 : ∀ st, ∀ t ∈ List.range 20,
      d10Pass1Step (d10SoupIndexSwapped s) st t = d10Pass1Step d10SoupIndex st t := by
    intro st t ht
    have ht20 : t < 20 := by simpa using ht
    obtain ⟨h1, h2, _⟩ := d10TriData_swap_invariant t ht20
    unfold d10Pass1Step
    rw [triAt_d10SoupIndexSwapped _ _ ht20, triAt_d10SoupIndex _ ht20]
    rcases Bool.dichotomy (s t) with h | h
    · simp [h]
    · simp only [h, if_true]
      by_cases happ : d10HasApex (3 * t, 3 * t + 1, 3 * t + 2) = true
      · simp [h1, happ, h2 happ]
      · simp only [Bool.not_eq_true] at happ
        simp [h1, happ]
  have hstep2 : ∀ st, ∀ t ∈ List.range 20,
      d10Pass2Step (d10SoupIndexSwapped s) st t = d10Pass2Step d10SoupIndex st t := by
    intro st t ht
    have ht20 : t < 20 := by simpa using ht
    obtain ⟨_, _, h3⟩ := d10TriData_swap_invariant t ht20
    unfold d10Pass2Step
    rw [triAt_d10SoupIndexSwapped _ _ ht20, triAt_d10SoupIndex _ ht20]
    rcases Bool.dichotomy (s t) with h | h
    · simp [h]
    · simp [h, h3]
  have hfoldM : ∀ (l : List ℕ), (∀ t ∈ l, ∀ st',
      d10Pass2Step (d10SoupIndexSwapped s) st' t = d10Pass2Step d10SoupIndex st' t) →
      ∀ st, l.foldlM (d10Pass2Step (d10SoupIndexSwapped s)) st =
        l.foldlM (d10Pass2Step d10SoupIndex) st := by
    intro l
    induction l with
    | nil => intro _ st; rfl
    | cons a l ih =>
      intro h st
      rw [List.foldlM_cons, List.foldlM_cons, h a (by simp)]
      cases d10Pass2Step d10SoupIndex st a with
      | error e => rfl
      | ok st' =>
        exact ih (fun t ht st'' => h t (by simp [ht]) st'') st'
  show buildD10Groups_Teal ⟨some pos, some (d10SoupIndexSwapped s)⟩ = _
  unfold buildD10Groups_Teal d10Geom getIndexArray
  simp only
  rw [d10SoupIndexSwapped_length, show d10SoupIndex.length = 60 from by decide]
  norm_num
  have hf1 : (List.range 20).foldl (d10Pass1Step (d10SoupIndexSwapped s))
      { groups := [], keyToIndex := [], triToGroup := List.replicate 20 65535 } =
      (List.range 20).foldl (d10Pass1Step d10SoupIndex)
      { groups := [], keyToIndex := [], triToGroup := List.replicate 20 65535 } :=
    List.foldl_ext _ _ _ (fun st t htl => hstep1 st t htl)
  rw [hf1, hfoldM (List.range 20) (fun t ht st' => hstep2 st' t ht)]

/-! ## The die-type registry (`src/die-types.ts`, lines 287-369)

`DieSpec` keeps the fields of the source record that the verified claims
consume.  The label/value closures produced by `byIndex` and by the
percentile variants depend only on the group's position `gi` in the group
list (`all.indexOf(g)`); they are modelled by the standalone functions
`byIndexValue`, `tensValue`, `unitsValue` below, so that `DieSpec` itself
has decidable equality. -/

inductive InternalKind where
  | d4 | d6 | d8 | d10 | d12 | d20 | d100 | d10_tens | d10_units
  deriving DecidableEq, Repr

structure DieSpec where
  kind : InternalKind
  maxValue : ℕ
  /-- whether the entry carries the custom `groupsBuilder`
  (`buildD10Groups_Teal`) -/
  usesD10Grouper : Bool
  /-- `readMode === "bottom"` (only the d4) -/
  readBottom : Bool
  deriving DecidableEq, Repr

/-- `valueForGroup` of the `byIndex` helper: `all.indexOf(g) + 1`. -/
def byIndexValue (gi : ℕ) : ℤ := (gi : ℤ) + 1

/-- `valueForGroup` of `D10_TENS`: `(all.indexOf(g) % 10) * 10`. -/
def tensValue (gi : ℕ) : ℤ := ((gi % 10 : ℕ) : ℤ) * 10

/-- `valueForGroup` of `D10_UNITS`: `all.indexOf(g) % 10`. -/
def unitsValue (gi : ℕ) : ℤ := ((gi % 10 : ℕ) : ℤ)

def D4 : DieSpec := { kind := .d4, maxValue := 4, usesD10Grouper := false, readBottom := true }

def D6 : DieSpec := { kind := .d6, maxValue := 6, usesD10Grouper := false, readBottom := false }

def D8 : DieSpec := { kind := .d8, maxValue := 8, usesD10Grouper := false, readBottom := false }

def D12 : DieSpec := { kind := .d12, maxValue := 12, usesD10Grouper := false, readBottom := false }

def D20 : DieSpec := { kind := .d20, maxValue := 20, usesD10Grouper := false, readBottom := false }

def D10 : DieSpec := { kind := .d10, maxValue := 10, usesD10Grouper := true, readBottom := false }

def D10_TENS : DieSpec :=
  { kind := .d10_tens, maxValue := 100, usesD10Grouper := true, readBottom := false }

def D10_UNITS : DieSpec :=
  { kind := .d10_units, maxValue := 10, usesD10Grouper := true, readBottom := false }

/-- The d100 button of `DiceApp.tsx` line 124 passes `{...D10, kind: "d100"}`. -/
def D100Button : DieSpec := { D10 with kind := .d100 }

/-! ## The tray orchestrator (`src/DiceApp.tsx`, `useDiceTray`)

The `values` record (`Record<string, number>`) is an association list with
at most one binding per key (`onTopValue` replaces in place, `addDie` never
touches it).  `crypto.randomUUID()` is an oracle: each operation that needs
a fresh identifier receives it as an explicit argument. -/

inductive Phase where
  | select | rolling | results
  deriving DecidableEq, Repr

inductive D100Role where
  | tens | units
  deriving DecidableEq, Repr

/-- `DiePlan` (src/Die.tsx lines 9-14). -/
structure DiePlan where
  id : String
  spec : DieSpec
  position : Vec3
  asD100 : Option (String × D100Role)
  deriving DecidableEq, Repr

/-- `Selection` (src/DiceApp.tsx lines 29-31). -/
inductive Selection where
  | single (id : String)
  | d100 (tensId unitsId gid : String)
  deriving DecidableEq, Repr

/-- The state owned by `useDiceTray` (src/DiceApp.tsx lines 34-39); the
canvas-remount counter `key` is render plumbing and not modelled. -/
structure TrayState where
  plans : List DiePlan
  values : List (String × ℤ)
  rollToken : ℕ
  phase : Phase
  order : List Selection
  deriving DecidableEq, Repr

/-- Read `values[id]` (`undefined` = `none`). -/
def valuesGet (values : List (String × ℤ)) (id : String) : Option ℤ :=
  match values with
  | [] => none
  | (k, v) :: rest => if k = id then some v else valuesGet rest id

/-- The spread `{...v, [id]: value}`: replace the binding in place, or add
it. -/
def valuesSet (values : List (String × ℤ)) (id : String) (value : ℤ) :
    List (String × ℤ) :=
  match values with
  | [] => [(id, value)]
  | (k, v) :: rest =>
    if k = id then (k, value) :: rest else (k, v) :: valuesSet rest id value

/-- `preRollPosition` (src/DiceApp.tsx lines 20-26), returned as `(x, y, z)`. -/
def preRollPosition (index : ℕ) : Vec3 :=
  let cols := 4
  let spacing : ℚ := 5 / 4
  let row := index / cols
  let col := index % cols
  let startX : ℚ := -4
  let startZ : ℚ := -(5 / 2)
  ( startX + (col : ℚ) * spacing
  , 3 / 2 + ((row % 3 : ℕ) : ℚ) * (1 / 20)
  , startZ + (row : ℚ) * spacing )

/-- The textual kind tag used in single-die ids. -/
def kindTag : InternalKind → String
  | .d4 => "d4" | .d6 => "d6" | .d8 => "d8" | .d10 => "d10" | .d12 => "d12"
  | .d20 => "d20" | .d100 => "d100" | .d10_tens => "d10_tens" | .d10_units => "d10_units"

/-- `addDie` (src/DiceApp.tsx lines 43-60).  `gid` is the oracle for
`crypto.randomUUID()` (used as the shared group id for a d100 request and
as the id suffix for a single die). -/
def addDie (s : TrayState) (spec : DieSpec) (gid : String) : TrayState :=
  if s.phase ≠ .select then s
  else if spec.kind = .d100 then
    let base := s.plans.length
    let tens : DiePlan :=
      { id := "d100t-" ++ gid, spec := D10_TENS
        position := preRollPosition base, asD100 := some (gid, .tens) }
    let units : DiePlan :=
      { id := "d100u-" ++ gid, spec := D10_UNITS
        position := preRollPosition (base + 1), asD100 := some (gid, .units) }
    { s with plans := s.plans ++ [tens, units]
             order := s.order ++ [.d100 tens.id units.id gid] }
  else
    let plan : DiePlan :=
      { id := kindTag spec.kind ++ "-" ++ gid, spec := spec
        position := preRollPosition s.plans.length, asD100 := none }
    { s with plans := s.plans ++ [plan]
             order := s.order ++ [.single plan.id] }

/-- `onTopValue` (src/DiceApp.tsx lines 73-75): idempotent upsert. -/
def onTopValue (s : TrayState) (id : String) (value : ℤ) : TrayState :=
  if valuesGet s.values id = some value then s
  else { s with values := valuesSet s.values id value }

/-- `resultsReady` (src/DiceApp.tsx lines 77-87). -/
def resultsReady (s : TrayState) : Bool :=
  if s.plans.length = 0 then false
  else
    s.order.all (fun sel =>
      match sel with
      | .single id => (valuesGet s.values id).isSome
      | .d100 tid uid _ =>
        (valuesGet s.values tid).isSome && (valuesGet s.values uid).isSome)

/-- The effect `useEffect(..., [phase, resultsReady])` (src/DiceApp.tsx
line 89): advance `rolling → results` when the readiness check is true. -/
def phaseAdvanceStep (s : TrayState) : TrayState :=
  if s.phase = .rolling ∧ resultsReady s then { s with phase := .results } else s

/-- The inline percentile rule of `resultsList` (src/DiceApp.tsx line 97):
`v = tens + units`, overwritten with 100 when both are 0. -/
def compositeValue (tens units : ℤ) : ℤ :=
  if tens = 0 ∧ units = 0 then 100 else tens + units

/-- `resultsList` (src/DiceApp.tsx lines 91-102).  A single die pushes
`values[id]` as is (possibly `undefined` = `none`); a percentile pair pushes
the composite of the recorded values, each defaulted to 0 (`?? 0`). -/
def resultsList (order : List Selection) (values : List (String × ℤ)) :
    List (Option ℤ) :=
  order.map (fun sel =>
    match sel with
    | .single id => valuesGet values id
    | .d100 tid uid _ =>
      some (compositeValue ((valuesGet values tid).getD 0)
        ((valuesGet values uid).getD 0)))

/-- `total` (src/DiceApp.tsx line 104): `resultsList.reduce((a,b)=>a+b,0)`.
Whenever the total is displayed, every entry of the list is present; a JS
`undefined` entry would poison the reduce with `NaN`, which has no rational
counterpart, so missing entries are read as their `getD 0` here. -/
def totalOf (order : List Selection) (values : List (String × ℤ)) : ℤ :=
  (resultsList order values).foldl (fun a b => a + b.getD 0) 0

/-- The results-ready condition in the words of the spec: every single die
in placement order has a recorded value and every percentile pair has both
its tens and units values recorded.  (Stated from the spec for comparison
with `resultsReady`.) -/
def allRecorded (s : TrayState) : Prop :=
  ∀ sel ∈ s.order,
    match sel with
    | .single id => (valuesGet s.values id).isSome = true
    | .d100 tid uid _ =>
      (valuesGet s.values tid).isSome = true ∧
      (valuesGet s.values uid).isSome = true

instance (s : TrayState) : Decidable (allRecorded s) := by
  unfold allRecorded
  have : DecidablePred (fun sel : Selection =>
      match sel with
      | .single id => (valuesGet s.values id).isSome = true
      | .d100 tid uid _ =>
        (valuesGet s.values tid).isSome = true ∧
        (valuesGet s.values uid).isSome = true) := by
    intro sel
    cases sel with
    | single id => simp only; infer_instance
    | d100 tid uid gid => simp only; infer_instance
  exact List.decidableBAll _ s.order

/-! ## The settle detector (`src/Die.tsx`, lines 91-163)

The poll body runs every 120 ms.  Its inputs at one tick are: whether
updates are accepted (`acceptUpdates && ref.current`), the observed linear
speed, and the face-group reading `gIdx = triToGroup[bestTri]` produced by
the world-space face scan (the scan itself is float geometry over the live
physics transform and enters the model as this abstract reading, exactly
the interface the spec's §8 synthetic-readings property uses).  The
per-die mutable state is `lastGroup`/`stableCount`; the die's slot
`values[plan.id]` of the tray is threaded alongside, updated through the
`onTopValue` upsert (`v[id] === value ? v : {...v, [id]: value}`).
`valueForGroup` is passed in as `val` (e.g. `byIndexValue` for the
`byIndex` dice). -/

structure DetState where
  lastGroup : Option ℕ
  stableCount : ℕ
  deriving DecidableEq, Repr

structure DetInput where
  accept : Bool
  speed : ℚ
  reading : ℕ
  deriving DecidableEq, Repr

/-- The `onTopValue` upsert restricted to this die's slot. -/
def reportUpsert (v : Option ℤ) (x : ℤ) : Option ℤ :=
  if v = some x then v else some x

/-- One poll tick (src/Die.tsx lines 117-163). -/
def dieTick (val : ℕ → ℤ) (s : DetState × Option ℤ) (i : DetInput) :
    DetState × Option ℤ :=
  if !i.accept then s
  else if i.speed > 12 / 100 then ({ s.1 with stableCount := 0 }, s.2)
  else
    let g := i.reading
    let d : DetState :=
      if s.1.lastGroup = some g then { s.1 with stableCount := s.1.stableCount + 1 }
      else { lastGroup := some g, stableCount := 1 }
    if d.stableCount ≥ 3 then (d, reportUpsert s.2 (val g)) else (d, s.2)

/-- A run of the detector over a sequence of poll ticks. -/
def runDie (val : ℕ → ℤ) (s : DetState × Option ℤ) (ticks : List DetInput) :
    DetState × Option ℤ :=
  ticks.foldl (dieTick val) s

theorem valuesGet_valuesSet (vs : List (String × ℤ)) (id : String) (value : ℤ) :
    valuesGet (valuesSet vs id value) id = some value := by
  induction vs with
  | nil => simp [valuesGet, valuesSet]
  | cons kv rest ih =>
    by_cases hk : kv.1 = id
    · simp [valuesGet, valuesSet, hk]
    · simpa [valuesGet, valuesSet, hk] using ih

/-- `onTopValue` touches only the die's own key, and on that key it is
exactly `reportUpsert` (the link between the per-die model above and the
tray's record). -/
theorem onTopValue_valuesGet (s : TrayState) (id : String) (value : ℤ) :
    valuesGet (onTopValue s id value).values id =
      reportUpsert (valuesGet s.values id) value := by
  unfold onTopValue reportUpsert
  by_cases h : valuesGet s.values id = some value
  · simp [h]
  · simp [h, valuesGet_valuesSet]

/-! ## Initial tray state (`useState` initializers, src/DiceApp.tsx 34-39) -/

def trayInit : TrayState :=
  { plans := [], values := [], rollToken := 0, phase := .select, order := [] }

/-! ## Claim C1 -/

/-- The groups produced by `buildD10Groups_Teal` on the d10 soup: pass 1
catches only flat triangle 3 (the only triple containing the numbers 10 and
11, which are soup positions here, not apex vertices) under the key
`"NaN_9"`; pass 2 then buckets the remaining 19 triangles by flat-index
edges 2 apart, pairing triangle `t` with `t + 10` — except triangle 13,
whose partner 3 is already taken, leaving a second singleton. -/
def d10SoupGroups : List (List ℕ) :=
  [[3], [0, 10], [1, 11], [2, 12], [4, 14], [5, 15], [6, 16],
   [7, 17], [8, 18], [9, 19], [13]]

/-- C1, evaluation at the failing registry entry: the d10 entry declares
`maxValue = 10` and the specialized grouper, but running that grouper on
the geometry the entry generates (the `geomD10_TealFull` triangle soup,
whatever its vertex positions) produces 11 face groups, not 10. -/
theorem C1_d10_group_count :
    D10.maxValue = 10 ∧ D10.usesD10Grouper = true ∧
    ∀ pos : List Vec3,
      (buildD10Groups_Teal (d10Geom pos)).toOption.map (fun r => r.1.length) =
        some 11 :=
  ⟨rfl, rfl, fun _ => rfl⟩

/-! ## Claim C2 -/

/-- C2, evaluation at the failing input: on the canonical d10 geometry (the
soup emitted by `geomD10_TealFull`, 10 apex triangles `0..9` followed by 10
belt triangles `10..19`), the grouper does NOT return 10 groups of 2: it
returns the 11 groups `d10SoupGroups`, whose triangle counts sum to 20 but
include two singleton groups (`[3]`, an apex-only group, and `[13]`, a
belt-only group). -/
theorem C2_d10_groups_structure :
    (∀ pos : List Vec3,
      (buildD10Groups_Teal (d10Geom pos)).toOption.map (fun r => r.1) =
        some d10SoupGroups) ∧
    (d10SoupGroups.map List.length).sum = 20 ∧
    ¬ (∀ g ∈ d10SoupGroups, g.length = 2) ∧
    d10SoupGroups.length ≠ 10 :=
  ⟨fun _ => rfl, by decide, by decide, by decide⟩

/-! ## Claim C3 -/

/-- A tick trace: three quiet polls reading group 0, one disturbance
(speed 0.2 > 0.12), then three quiet polls reading group 1. -/
def c3Trace : List DetInput :=
  [ ⟨true, 1/10, 0⟩, ⟨true, 1/10, 0⟩, ⟨true, 1/10, 0⟩
  , ⟨true, 1/5, 0⟩
  , ⟨true, 1/10, 1⟩, ⟨true, 1/10, 1⟩, ⟨true, 1/10, 1⟩ ]

/-- C3 counterexample: the claim says the committed value "does not change
again until a new roll token arrives".  The poll loop never consumes the
roll token: after committing value 1 (group 0 stable for 3 ticks), a
disturbance and re-settling on group 1 re-commits value 2 on the same
throw — the committed value changed, and `c3Trace` contains no roll event
at all. -/
theorem C3_counterexample :
    (runDie byIndexValue (⟨none, 0⟩, none) (c3Trace.take 3)).2 = some 1 ∧
    (runDie byIndexValue (⟨none, 0⟩, none) c3Trace).2 = some 2 := by
  have hlow : ¬ ((1:ℚ)/10 > 12/100) := by norm_num
  have hhigh : ((1:ℚ)/5 > 12/100) := by norm_num
  simp only [runDie, c3Trace, List.take, List.foldl_cons, List.foldl_nil,
    dieTick, hlow, hhigh, if_true, if_false, Bool.not_true, reportUpsert,
    byIndexValue]
  decide

/-- C3 as amended: (a) three consecutive identical readings at or below
the speed threshold commit the read group's value; (b) from any committed
state, as long as every accepted tick stays at or below the threshold and
keeps reading the same group, the recorded value never changes (the
re-reports the code makes on every further stable tick are idempotent and
carry the same value) — but a disturbance that changes the stable reading
can re-commit a different value without any new roll token
(`C3_counterexample`). -/
theorem C3_commit_and_idempotent_reports :
    (∀ (val : ℕ → ℤ) (g : ℕ) (sp : ℚ), sp ≤ 12 / 100 →
      runDie val (⟨none, 0⟩, none) (List.replicate 3 ⟨true, sp, g⟩) =
        (⟨some g, 3⟩, some (val g))) ∧
    (∀ (val : ℕ → ℤ) (g : ℕ) (d : DetState) (v : Option ℤ)
        (ticks : List DetInput),
      d.lastGroup = some g → 3 ≤ d.stableCount → v = some (val g) →
      (∀ i ∈ ticks, i.accept = true → i.speed ≤ 12 / 100 ∧ i.reading = g) →
      (runDie val (d, v) ticks).2 = some (val g) ∧
      (runDie val (d, v) ticks).1.lastGroup = some g ∧
      3 ≤ (runDie val (d, v) ticks).1.stableCount) := by
  constructor
  · intro val g sp hsp
    have h1 : ¬ (sp > 12 / 100) := not_lt.mpr hsp
    simp [runDie, List.replicate, dieTick, h1, reportUpsert]
  · intro val g d v ticks hlast hcount hv htick
    induction ticks generalizing d v with
    | nil =>
      refine ⟨hv ▸ rfl, hlast ▸ rfl, hcount⟩
    | cons i ticks ih =>
      have hrun : runDie val (d, v) (i :: ticks) =
          runDie val (dieTick val (d, v) i) ticks := rfl
      rw [hrun]
      cases haccept : i.accept with
      | false =>
        have hstep : dieTick val (d, v) i = (d, v) := by
          simp [dieTick, haccept]
        rw [hstep]
        exact ih d v hlast hcount hv
          (fun j hj => htick j (List.mem_cons_of_mem _ hj))
      | true =>
        obtain ⟨hsp, hread⟩ := htick i (List.mem_cons_self _ _) haccept
        have h1 : ¬ (i.speed > 12 / 100) := not_lt.mpr hsp
        have hstep : dieTick val (d, v) i =
            ({ d with stableCount := d.stableCount + 1 }, some (val g)) := by
          simp only [dieTick, haccept, Bool.not_true, if_false, h1, hread, hlast,
            if_true, Bool.false_eq_true]
          have : d.stableCount + 1 ≥ 3 := by omega
          simp [this, hv, reportUpsert]
        rw [hstep]
        exact ih _ _ hlast (by simp; omega) rfl
          (fun j hj => htick j (List.mem_cons_of_mem _ hj))

/-- Witness for `C3_commit_and_idempotent_reports` at concrete inputs:
settling on group 4 with speed 0.1 commits value 5, and a further stable
tick plus a suppressed tick leave the value at 5. -/
theorem C3_witness :
    runDie byIndexValue (⟨none, 0⟩, none) (List.replicate 3 ⟨true, 1/10, 4⟩) =
      (⟨some 4, 3⟩, some 5) ∧
    (runDie byIndexValue (⟨some 4, 3⟩, some 5)
      [⟨true, 1/10, 4⟩, ⟨false, 9, 7⟩]).2 = some 5 := by
  constructor
  · exact C3_commit_and_idempotent_reports.1 byIndexValue 4 (1/10) (by norm_num)
  · exact (C3_commit_and_idempotent_reports.2 byIndexValue 4 ⟨some 4, 3⟩ (some 5)
      [⟨true, 1/10, 4⟩, ⟨false, 9, 7⟩] rfl (by norm_num)
      (by norm_num [byIndexValue])
      (by
        intro i hi
        rcases List.mem_cons.mp hi with rfl | hi
        · exact fun _ => ⟨by norm_num, rfl⟩
        · rcases List.mem_cons.mp hi with rfl | hi
          · intro h; simp at h
          · simp at hi)).1

/-! ## Claim C4 -/

theorem foldl_add_getD (l : List (Option ℤ)) (a : ℤ) :
    l.foldl (fun x b => x + b.getD 0) a = a + (l.map (fun o => o.getD 0)).sum := by
  induction l generalizing a with
  | nil => simp
  | cons o l ih => simp [ih, add_assoc]

/-- C4: the displayed percentile composite is `tens + units` except that
`0 + 0` is displayed as 100; the three spec examples; and the displayed
total is the sum of the per-selection results list. -/
theorem C4_percentile_composite :
    compositeValue 0 0 = 100 ∧ compositeValue 30 7 = 37 ∧
    compositeValue 90 0 = 90 ∧
    (∀ tens units : ℤ, ¬ (tens = 0 ∧ units = 0) →
      compositeValue tens units = tens + units) ∧
    (∀ (order : List Selection) (values : List (String × ℤ)),
      totalOf order values =
        ((resultsList order values).map (fun o => o.getD 0)).sum) := by
  refine ⟨by decide, by decide, by decide, fun tens units h => ?_, fun order values => ?_⟩
  · unfold compositeValue
    rw [if_neg h]
  · unfold totalOf
    rw [foldl_add_getD]
    simp

/-- Witness for `C4_percentile_composite` at `tens = 30`, `units = 7`. -/
theorem C4_witness : compositeValue 30 7 = 30 + 7 :=
  C4_percentile_composite.2.2.2.1 30 7 (by decide)

/-! ## Claim C8 -/

/-- C8: `addDie` is a no-op outside the select phase; in the select phase a
d100 request appends exactly two plans — a tens plan and a units plan
sharing the freshly generated group id with roles tens/units — and one
composite selection entry, while any other kind appends exactly one plan
and one single selection entry; `values`, `phase` and `rollToken` are
untouched either way. -/
theorem C8_addDie_behavior :
    ∀ (s : TrayState) (spec : DieSpec) (gid : String),
      (s.phase ≠ .select → addDie s spec gid = s) ∧
      (s.phase = .select → spec.kind = .d100 →
        ∃ tens units : DiePlan,
          (addDie s spec gid).plans = s.plans ++ [tens, units] ∧
          tens.spec = D10_TENS ∧ units.spec = D10_UNITS ∧
          tens.asD100 = some (gid, .tens) ∧ units.asD100 = some (gid, .units) ∧
          (addDie s spec gid).order = s.order ++ [.d100 tens.id units.id gid] ∧
          (addDie s spec gid).values = s.values ∧
          (addDie s spec gid).phase = s.phase ∧
          (addDie s spec gid).rollToken = s.rollToken) ∧
      (s.phase = .select → spec.kind ≠ .d100 →
        ∃ plan : DiePlan,
          plan.spec = spec ∧ plan.asD100 = none ∧
          (addDie s spec gid).plans = s.plans ++ [plan] ∧
          (addDie s spec gid).order = s.order ++ [.single plan.id] ∧
          (addDie s spec gid).values = s.values ∧
          (addDie s spec gid).phase = s.phase ∧
          (addDie s spec gid).rollToken = s.rollToken) := by
  intro s spec gid
  refine ⟨fun h => ?_, fun hp hk => ?_, fun hp hk => ?_⟩
  · unfold addDie
    rw [if_pos h]
  · unfold addDie
    rw [if_neg (by simp [hp]), if_pos hk]
    exact ⟨_, _, rfl, rfl, rfl, rfl, rfl, rfl, rfl, rfl, rfl⟩
  · unfold addDie
    rw [if_neg (by simp [hp]), if_neg hk]
    exact ⟨_, rfl, rfl, rfl, rfl, rfl, rfl, rfl⟩

/-- Witness for `C8_addDie_behavior`: a d100 request on the empty select
tray yields two plans, a d6 request yields one, and adding during the
rolling phase is a no-op. -/
theorem C8_witness :
    (addDie trayInit D100Button "g").plans.length = 2 ∧
    (addDie trayInit D6 "u").plans.length = 1 ∧
    addDie { trayInit with phase := .rolling } D6 "u" =
      { trayInit with phase := .rolling } := by
  obtain ⟨t, u, hp, -⟩ :=
    (C8_addDie_behavior trayInit D100Button "g").2.1 rfl rfl
  obtain ⟨p, -, -, hp2, -⟩ :=
    (C8_addDie_behavior trayInit D6 "u").2.2 rfl (by decide)
  refine ⟨?_, ?_, (C8_addDie_behavior _ D6 "u").1 (by decide)⟩
  · rw [hp]; simp [trayInit]
  · rw [hp2]; simp [trayInit]

/-! ## Claim C9 -/

/-- C9 counterexample: the claim states the readiness check is true iff
every single selection has a value and every pair has both — but in the
empty tray that condition holds vacuously while `resultsReady` is false
(the code additionally requires at least one die). -/
theorem C9_counterexample :
    allRecorded { trayInit with phase := .rolling } ∧
    resultsReady { trayInit with phase := .rolling } = false := by
  constructor
  · intro sel hsel
    simp [trayInit] at hsel
  · rfl

/-- C9 as amended: when at least one die is present, the readiness check is
true iff every single selection has a recorded value and every percentile
pair has both tens and units recorded; and the phase-advance effect moves
`rolling` to `results` exactly when the check is true, leaving the state
unchanged in every other situation. -/
theorem C9_ready_iff_and_advance :
    (∀ s : TrayState, s.plans ≠ [] → (resultsReady s = true ↔ allRecorded s)) ∧
    (∀ s : TrayState, s.phase = .rolling → resultsReady s = true →
      phaseAdvanceStep s = { s with phase := .results }) ∧
    (∀ s : TrayState, ¬ (s.phase = .rolling ∧ resultsReady s) →
      phaseAdvanceStep s = s) := by
  refine ⟨fun s hne => ?_, fun s h1 h2 => ?_, fun s h => ?_⟩
  · unfold resultsReady
    rw [if_neg (fun hlen => hne (List.length_eq_zero.mp hlen)), List.all_eq_true]
    unfold allRecorded
    constructor
    · intro h sel hsel
      have hx := h sel hsel
      cases sel with
      | single id => simpa using hx
      | d100 tid uid gid => simpa [Bool.and_eq_true] using hx
    · intro h sel hsel
      have hx := h sel hsel
      cases sel with
      | single id => simpa using hx
      | d100 tid uid gid =>
        simp only [Bool.and_eq_true]
        exact hx
  · unfold phaseAdvanceStep
    rw [if_pos ⟨h1, h2⟩]
  · unfold phaseAdvanceStep
    rw [if_neg h]

/-- A one-die tray in the rolling phase whose die has reported. -/
def trayW : TrayState :=
  { plans := [{ id := "a", spec := D6, position := (0, 0, 0), asD100 := none }]
    values := [("a", 3)], rollToken := 1, phase := .rolling
    order := [.single "a"] }

/-- Witness for `C9_ready_iff_and_advance` at the concrete tray `trayW`. -/
theorem C9_witness :
    resultsReady trayW = true ∧
    phaseAdvanceStep trayW = { trayW with phase := .results } := by
  have hready : resultsReady trayW = true :=
    (C9_ready_iff_and_advance.1 trayW (by simp [trayW])).mpr (by decide)
  exact ⟨hready, C9_ready_iff_and_advance.2.1 trayW rfl hready⟩

/-! ## Winding correction (`src/die-types.ts`, `orientTrianglesOutward`) -/

/-- The triangle normal `(B − A) × (C − A)` (src/die-types.ts line 70). -/
def triNormal (A B C : Vec3) : Vec3 := vcross (vsub B A) (vsub C A)

/-- The triangle centroid `(A + B + C) / 3` (src/die-types.ts lines 72-76). -/
def triCentroid (A B C : Vec3) : Vec3 := vsmul (1 / 3) (vadd (vadd A B) C)

/-- `normal ⋅ centroid` of the triangle read from `pos` at the given vertex
indices — the outwardness test of src/die-types.ts line 79. -/
def triDotNC (pos : List Vec3) (tri : ℕ × ℕ × ℕ) : ℚ :=
  let A := getVert pos tri.1
  let B := getVert pos tri.2.1
  let C := getVert pos tri.2.2
  vdot (triNormal A B C) (triCentroid A B C)

/-- The loop body of `orientTrianglesOutward` (lines 60-84) for one
triangle: when `normal ⋅ centroid < 0`, swap the second and third index
slot. -/
def orientTriple (pos : List Vec3) (tri : ℕ × ℕ × ℕ) : ℕ × ℕ × ℕ :=
  if triDotNC pos tri < 0 then (tri.1, tri.2.2, tri.2.1) else tri

/-- Split a flat index list into its complete triangles. -/
def toTriples : List ℕ → List (ℕ × ℕ × ℕ)
  | a :: b :: c :: rest => (a, b, c) :: toTriples rest
  | _ => []

/-- `orientTrianglesOutward` (src/die-types.ts lines 43-91): synthesize the
identity index for a non-indexed geometry, flip inward-winding triangles in
place, and leave the (possibly synthesized and now mutated) index
installed — the geometry keeps the same positions.  (The source's trailing
`toNonIndexed()` allocates a geometry that is discarded.)  A trailing
partial triple of the index, if any, is untouched by the loop.  With no
position attribute the JS code dereferences `undefined` and throws. -/
def orientTrianglesOutward (g : Geometry) : Except String Geometry :=
  match g.position with
  | none => .error "TypeError: geometry has no position attribute"
  | some pos =>
    let idx :=
      match g.index with
      | some i => i
      | none => List.range pos.length
    let idx' :=
      (toTriples idx).flatMap
        (fun tri =>
          let r := orientTriple pos tri
          [r.1, r.2.1, r.2.2]) ++ idx.drop (idx.length / 3 * 3)
    .ok { position := some pos, index := some idx' }

theorem triDotNC_swap (pos : List Vec3) (tri : ℕ × ℕ × ℕ) :
    triDotNC pos (tri.1, tri.2.2, tri.2.1) = -triDotNC pos tri := by
  obtain ⟨a, b, c⟩ := tri
  simp only [triDotNC, triNormal, triCentroid, vdot, vcross, vsub, vadd, vsmul]
  ring

theorem orientTriple_nonneg (pos : List Vec3) (tri : ℕ × ℕ × ℕ) :
    0 ≤ triDotNC pos (orientTriple pos tri) := by
  unfold orientTriple
  by_cases h : triDotNC pos tri < 0
  · rw [if_pos h, triDotNC_swap]
    linarith
  · rw [if_neg h]
    linarith [not_lt.mp h]

theorem toTriples_length : ∀ l : List ℕ, (toTriples l).length = l.length / 3
  | [] => rfl
  | [_] => by simp [toTriples]
  | [_, _] => by simp [toTriples]
  | a :: b :: c :: rest => by
    simp only [toTriples, List.length_cons, toTriples_length rest]
    omega

theorem length_flatMap_chunk3 {α : Type} (f : α → List ℕ)
    (h3 : ∀ i, (f i).length = 3) (l : List α) :
    (l.flatMap f).length = 3 * l.length := by
  induction l with
  | nil => simp
  | cons a l ih => simp [List.flatMap_cons, ih, h3]; omega

/-- C5: after the winding-correction pass every triangle of the output
satisfies `0 ≤ normal ⋅ centroid`; and the pass acts on each triangle
exactly as described — it swaps the second and third indices when the dot
product is negative and leaves the triangle alone otherwise. -/
theorem C5_winding_correction :
    (∀ (pos : List Vec3) (tri : ℕ × ℕ × ℕ),
      (triDotNC pos tri < 0 →
        orientTriple pos tri = (tri.1, tri.2.2, tri.2.1)) ∧
      (0 ≤ triDotNC pos tri → orientTriple pos tri = tri)) ∧
    (∀ (g g' : Geometry) (pos : List Vec3) (idx' : List ℕ),
      g.position = some pos →
      orientTrianglesOutward g = .ok g' →
      g'.index = some idx' →
      ∀ t, t < idx'.length / 3 → 0 ≤ triDotNC pos (triAt idx' t)) := by
  constructor
  · intro pos tri
    constructor
    · intro h
      unfold orientTriple
      rw [if_pos h]
    · intro h
      unfold orientTriple
      rw [if_neg (not_lt.mpr h)]
  · intro g g' pos idx' hpos hok hidx t ht
    unfold orientTrianglesOutward at hok
    rw [hpos] at hok
    set idx :=
      (match g.index with
       | some i => i
       | none => List.range pos.length : List ℕ) with hidxdef
    injection hok with hok
    rw [← hok] at hidx
    injection hidx with hidx
    set f : (ℕ × ℕ × ℕ) → List ℕ := fun tri =>
      let r := orientTriple pos tri
      [r.1, r.2.1, r.2.2] with hf
    have h3 : ∀ i, (f i).length = 3 := fun i => rfl
    have hflatlen : ((toTriples idx).flatMap f).length = 3 * (toTriples idx).length :=
      length_flatMap_chunk3 f h3 _
    have hlen : idx'.length = 3 * (toTriples idx).length + (idx.length - idx.length / 3 * 3) := by
      rw [← hidx]
      simp [hflatlen]
    have htail : idx.length - idx.length / 3 * 3 < 3 := by omega
    have htlt : t < (toTriples idx).length := by
      rw [toTriples_length] at *
      omega
    have hcomp : triAt idx' t = orientTriple pos ((toTriples idx).getD t (0, 0, 0)) := by
      have hb : ∀ k, k < 3 → idx'.getD (3 * t + k) 0 =
          (f ((toTriples idx).getD t (0, 0, 0))).getD k 0 := by
        intro k hk
        rw [← hidx]
        rw [List.getD_append _ _ _ _ (by rw [hflatlen]; omega)]
        exact getD_flatMap_chunk3 f h3 _ (0, 0, 0) t k hk htlt
      have h0 := hb 0 (by omega)
      have h1 := hb 1 (by omega)
      have h2 := hb 2 (by omega)
      unfold triAt
      rw [show t * 3 = 3 * t + 0 by ring, show 3 * t + 0 + 1 = 3 * t + 1 by ring,
        show 3 * t + 1 + 1 = 3 * t + 2 by ring, h0, h1, h2]
      rfl
    rw [hcomp]
    exact orientTriple_nonneg pos _

/-- A one-triangle geometry wound inward: the pass must flip it. -/
def c5Pos : List Vec3 := [(0, 1, 0), (1, 0, 0), (0, 0, 1)]

def c5Idx : List ℕ := [0, 2, 1]

/-- Witness for `C5_winding_correction`: on the inward-wound triangle the
pass swaps the last two indices and the corrected triangle satisfies
`0 ≤ normal ⋅ centroid`. -/
theorem C5_witness :
    orientTrianglesOutward { position := some c5Pos, index := none } =
      .ok { position := some c5Pos, index := some c5Idx } ∧
    0 ≤ triDotNC c5Pos (triAt c5Idx 0) := by
  have hrange : List.range c5Pos.length = [0, 1, 2] := by decide
  have horient : orientTrianglesOutward { position := some c5Pos, index := none } =
      .ok { position := some c5Pos, index := some c5Idx } := by
    unfold orientTrianglesOutward
    simp only [hrange]
    norm_num [toTriples, orientTriple, triDotNC, triNormal, triCentroid,
      vsub, vadd, vsmul, vcross, vdot, getVert, c5Pos, c5Idx]
  refine ⟨horient, ?_⟩
  exact C5_winding_correction.2 { position := some c5Pos, index := none }
    { position := some c5Pos, index := some c5Idx } c5Pos c5Idx rfl horient rfl
    0 (by decide)

/-! ## The convex hull extractor (`src/convex.ts`, `geometryToConvexArgs`) -/

/-- `Math.round` of JS on an exact rational: round half toward `+∞`. -/
def jround (q : ℚ) : ℤ := ⌊q + 1 / 2⌋

/-- The quantization step `eps = 1e-6`. -/
def eps6 : ℚ := 1 / 1000000

/-- `keyFor` (src/convex.ts line 44): the string
`` `${round(x/eps)},${round(y/eps)},${round(z/eps)}` `` — a triple of
integers, modelled directly (the string form is injective on them). -/
def keyFor (v : Vec3) : ℤ × ℤ × ℤ :=
  (jround (v.1 / eps6), jround (v.2.1 / eps6), jround (v.2.2 / eps6))

/-- Convex args for `@react-three/cannon` (src/convex.ts line 20). -/
structure ConvexArgs where
  vertices : List Vec3
  faces : List (ℕ × ℕ × ℕ)
  deriving DecidableEq, Repr

/-- The mutable `vertices`/`vertMap` pair of `geometryToConvexArgs`. -/
structure CAState where
  vertices : List Vec3
  vertMap : List ((ℤ × ℤ × ℤ) × ℕ)
  deriving DecidableEq, Repr

/-- `addVert` (src/convex.ts lines 45-49): return the index of an
already-seen quantization key, or append the vertex under a fresh index. -/
def addVert (st : CAState) (v : Vec3) : ℕ × CAState :=
  let k := keyFor v
  match assocFind k st.vertMap with
  | some i => (i, st)
  | none =>
    ( st.vertices.length
    , { vertices := st.vertices ++ [v]
        vertMap := st.vertMap ++ [(k, st.vertices.length)] } )

/-- The loop body of `geometryToConvexArgs` (lines 52-58) for one triangle. -/
def caStep (pos : List Vec3) (acc : CAState × List (ℕ × ℕ × ℕ))
    (tri : ℕ × ℕ × ℕ) : CAState × List (ℕ × ℕ × ℕ) :=
  let ra := addVert acc.1 (getVert pos tri.1)
  let rb := addVert ra.2 (getVert pos tri.2.1)
  let rc := addVert rb.2 (getVert pos tri.2.2)
  (rc.2, acc.2 ++ [(ra.1, rb.1, rc.1)])

/-- `geometryToConvexArgs` (src/convex.ts lines 32-60). -/
def geometryToConvexArgs (g : Geometry) : Except String ConvexArgs :=
  match g.position with
  | none => .error "Geometry has no position attribute."
  | some pos =>
    match getIndexArray g with
    | .error e => .error e
    | .ok indexArray =>
      if indexArray.length % 3 ≠ 0 then
        .error "Geometry index/position not divisible by triangles."
      else
        let r := (toTriples indexArray).foldl (caStep pos) (⟨[], []⟩, [])
        .ok { vertices := r.1.vertices, faces := r.2 }

/-- Serialize a face list back into a flat index (the shape in which the
extractor's own output is fed back to it for the round-trip property). -/
def facesToIndex (faces : List (ℕ × ℕ × ℕ)) : List ℕ :=
  faces.flatMap (fun tri => [tri.1, tri.2.1, tri.2.2])

theorem toTriples_facesToIndex (faces : List (ℕ × ℕ × ℕ)) :
    toTriples (facesToIndex faces) = faces := by
  induction faces with
  | nil => rfl
  | cons tri rest ih => simp [facesToIndex, toTriples, ih] at *; exact ih

theorem assocFind_append {κ : Type} [DecidableEq κ] (k : κ)
    (l1 l2 : List (κ × ℕ)) :
    assocFind k (l1 ++ l2) =
      match assocFind k l1 with
      | some i => some i
      | none => assocFind k l2 := by
  induction l1 with
  | nil => simp [assocFind]
  | cons kv rest ih =>
    by_cases h : kv.1 = k
    · simp [assocFind, h]
    · simpa [assocFind, h] using ih

/-- The state invariant of the extractor's vertex map: the map reflects
exactly the quantization keys of the stored vertices, found indices are in
bounds, and no two stored vertices share a key. -/
def CAInv (st : CAState) : Prop :=
  (∀ k, assocFind k st.vertMap = none ↔ k ∉ st.vertices.map keyFor) ∧
  (∀ k i, assocFind k st.vertMap = some i → i < st.vertices.length) ∧
  (st.vertices.map keyFor).Nodup

theorem caInv_empty : CAInv ⟨[], []⟩ := by
  refine ⟨fun k => ?_, fun k i h => ?_, ?_⟩
  · simp [assocFind]
  · simp [assocFind] at h
  · simp

theorem addVert_spec (st : CAState) (v : Vec3) (h : CAInv st) :
    CAInv (addVert st v).2 ∧
    ((keyFor v ∈ st.vertices.map keyFor ∧ (addVert st v).2 = st ∧
      (addVert st v).1 < st.vertices.length) ∨
     (keyFor v ∉ st.vertices.map keyFor ∧
      (addVert st v).1 = st.vertices.length ∧
      (addVert st v).2.vertices = st.vertices ++ [v] ∧
      (addVert st v).2.vertMap = st.vertMap ++ [(keyFor v, st.vertices.length)])) := by
  obtain ⟨hrefl, hbound, hnodup⟩ := h
  cases hfind : assocFind (keyFor v) st.vertMap with
  | some i =>
    have haddv : addVert st v = (i, st) := by
      simp [addVert, hfind]
    rw [haddv]
    have hk : keyFor v ∈ st.vertices.map keyFor := by
      by_contra hc
      rw [← hrefl (keyFor v)] at hc
      rw [hfind] at hc
      exact Option.some_ne_none i hc
    exact ⟨⟨hrefl, hbound, hnodup⟩, Or.inl ⟨hk, rfl, hbound _ _ hfind⟩⟩
  | none =>
    have haddv : addVert st v =
        (st.vertices.length,
          ⟨st.vertices ++ [v], st.vertMap ++ [(keyFor v, st.vertices.length)]⟩) := by
      simp [addVert, hfind]
    rw [haddv]
    have hk : keyFor v ∉ st.vertices.map keyFor := (hrefl (keyFor v)).mp hfind
    refine ⟨⟨fun k => ?_, fun k i hfi => ?_, ?_⟩, Or.inr ⟨hk, rfl, rfl, rfl⟩⟩
    · rw [assocFind_append]
      constructor
      · intro hnone
        cases hcase : assocFind k st.vertMap with
        | some i => rw [hcase] at hnone; exact absurd hnone (by simp)
        | none =>
          rw [hcase] at hnone
          simp only [assocFind] at hnone
          by_cases hkk : keyFor v = k
          · rw [if_pos hkk] at hnone; exact absurd hnone (by simp)
          · intro hmem
            simp only [List.map_append, List.map_cons, List.map_nil,
              List.mem_append, List.mem_singleton] at hmem
            rcases hmem with hmem | hmem
            · exact (hrefl k).mp hcase hmem
            · exact hkk hmem.symm
      · intro hmem
        have hkk : keyFor v ≠ k := by
          intro hc
          apply hmem
          simp [← hc]
        have h1 : assocFind k st.vertMap = none := by
          rw [hrefl k]
          intro hc
          apply hmem
          simp only [List.map_append, List.map_cons, List.map_nil,
            List.mem_append, List.mem_singleton]
          exact Or.inl hc
        simp [h1, assocFind, hkk]
    · rw [assocFind_append] at hfi
      cases hcase : assocFind k st.vertMap with
      | some j =>
        rw [hcase] at hfi
        injection hfi with hj
        have := hbound _ _ hcase
        simp only [List.length_append, List.length_cons, List.length_nil]
        omega
      | none =>
        rw [hcase] at hfi
        simp only [assocFind] at hfi
        by_cases hkk : keyFor v = k
        · rw [if_pos hkk] at hfi
          injection hfi with hj
          simp only [List.length_append, List.length_cons, List.length_nil]
          omega
        · rw [if_neg hkk] at hfi
          exact absurd hfi (by simp)
    · simp only [List.map_append, List.map_cons, List.map_nil]
      rw [List.nodup_append]
      exact ⟨hnodup, List.nodup_singleton _, by simpa using hk⟩

theorem addVert_mono (st : CAState) (v : Vec3) (h : CAInv st) :
    CAInv (addVert st v).2 ∧
    st.vertices.length ≤ (addVert st v).2.vertices.length ∧
    (addVert st v).2.vertices.length ≤ st.vertices.length + 1 ∧
    (addVert st v).1 < (addVert st v).2.vertices.length ∧
    (st.vertices.length < (addVert st v).2.vertices.length →
      (addVert st v).1 = st.vertices.length) := by
  obtain ⟨hinv, hcases⟩ := addVert_spec st v h
  rcases hcases with ⟨-, he, hlt⟩ | ⟨-, hi, hv, -⟩
  · refine ⟨hinv, by rw [he], by rw [he]; omega, by rw [he]; exact hlt, fun hc => ?_⟩
    rw [he] at hc
    exact absurd hc (lt_irrefl _)
  · have hlen : (addVert st v).2.vertices.length = st.vertices.length + 1 := by
      rw [hv]
      simp
    exact ⟨hinv, by omega, by omega, by omega, fun _ => hi⟩

/-- The full invariant of the extractor's triangle loop: map/vertex-key
consistency, all emitted face indices in bounds, and every stored vertex
referenced by some emitted face. -/
def CAFull (acc : CAState × List (ℕ × ℕ × ℕ)) : Prop :=
  CAInv acc.1 ∧
  (∀ tri ∈ acc.2, tri.1 < acc.1.vertices.length ∧
    tri.2.1 < acc.1.vertices.length ∧ tri.2.2 < acc.1.vertices.length) ∧
  (∀ j < acc.1.vertices.length,
    ∃ tri ∈ acc.2, tri.1 = j ∨ tri.2.1 = j ∨ tri.2.2 = j)

theorem caStep_preserves (pos : List Vec3) (acc : CAState × List (ℕ × ℕ × ℕ))
    (tri : ℕ × ℕ × ℕ) (h : CAFull acc) : CAFull (caStep pos acc tri) := by
  obtain ⟨hinv, hbnd, hcov⟩ := h
  obtain ⟨hinv1, hge1, hle1, hidx1, hnew1⟩ :=
    addVert_mono acc.1 (getVert pos tri.1) hinv
  obtain ⟨hinv2, hge2, hle2, hidx2, hnew2⟩ :=
    addVert_mono (addVert acc.1 (getVert pos tri.1)).2 (getVert pos tri.2.1) hinv1
  obtain ⟨hinv3, hge3, hle3, hidx3, hnew3⟩ :=
    addVert_mono (addVert (addVert acc.1 (getVert pos tri.1)).2
      (getVert pos tri.2.1)).2 (getVert pos tri.2.2) hinv2
  simp only [CAFull, caStep]
  refine ⟨hinv3, ?_, ?_⟩
  · intro t ht
    rcases List.mem_append.mp ht with ht | ht
    · obtain ⟨h1, h2, h3⟩ := hbnd t ht
      exact ⟨by omega, by omega, by omega⟩
    · rcases List.mem_singleton.mp ht with rfl
      exact ⟨lt_of_lt_of_le hidx1 (le_trans hge2 hge3),
        lt_of_lt_of_le hidx2 hge3, hidx3⟩
  · intro j hj
    by_cases hj0 : j < acc.1.vertices.length
    · obtain ⟨t, ht, hor⟩ := hcov j hj0
      exact ⟨t, List.mem_append.mpr (Or.inl ht), hor⟩
    · refine ⟨_, List.mem_append.mpr (Or.inr (List.mem_singleton.mpr rfl)), ?_⟩
      by_cases hj1 : j < (addVert acc.1 (getVert pos tri.1)).2.vertices.length
      · exact Or.inl (show (addVert acc.1 (getVert pos tri.1)).1 = j by
          rw [hnew1 (by omega)]; omega)
      · by_cases hj2 : j < (addVert (addVert acc.1 (getVert pos tri.1)).2
            (getVert pos tri.2.1)).2.vertices.length
        · exact Or.inr (Or.inl
            (show (addVert (addVert acc.1 (getVert pos tri.1)).2
                (getVert pos tri.2.1)).1 = j by
              rw [hnew2 (by omega)]; omega))
        · exact Or.inr (Or.inr
            (show (addVert (addVert (addVert acc.1 (getVert pos tri.1)).2
                (getVert pos tri.2.1)).2 (getVert pos tri.2.2)).1 = j by
              rw [hnew3 (by omega)]; omega))

theorem caFold_preserves (pos : List Vec3) (ts : List (ℕ × ℕ × ℕ))
    (acc : CAState × List (ℕ × ℕ × ℕ)) (h : CAFull acc) :
    CAFull (ts.foldl (caStep pos) acc) := by
  induction ts generalizing acc with
  | nil => exact h
  | cons t ts ih => exact ih _ (caStep_preserves pos acc t h)

theorem geometryToConvexArgs_inv (g : Geometry) (pos : List Vec3)
    (args : ConvexArgs) (hpos : g.position = some pos)
    (hok : geometryToConvexArgs g = .ok args) :
    (args.vertices.map keyFor).Nodup ∧
    (∀ tri ∈ args.faces, tri.1 < args.vertices.length ∧
      tri.2.1 < args.vertices.length ∧ tri.2.2 < args.vertices.length) ∧
    (∀ j < args.vertices.length,
      ∃ tri ∈ args.faces, tri.1 = j ∨ tri.2.1 = j ∨ tri.2.2 = j) := by
  unfold geometryToConvexArgs at hok
  rw [hpos] at hok
  cases hga : getIndexArray g with
  | error e => rw [hga] at hok; exact absurd hok (by simp)
  | ok idx =>
    rw [hga] at hok
    dsimp only at hok
    by_cases hmod : idx.length % 3 ≠ 0
    · rw [if_pos hmod] at hok
      exact absurd hok (by simp)
    · rw [if_neg hmod] at hok
      injection hok with hok
      have hfull := caFold_preserves pos (toTriples idx) (⟨[], []⟩, [])
        ⟨caInv_empty, by simp, by simp⟩
      rw [← hok]
      obtain ⟨⟨-, -, hnodup⟩, hbnd, hcov⟩ := hfull
      exact ⟨hnodup, hbnd, hcov⟩

theorem nodup_key_inj (verts : List Vec3) (hnd : (verts.map keyFor).Nodup) :
    ∀ i j, i < verts.length → j < verts.length →
      keyFor (verts.getD i (0, 0, 0)) = keyFor (verts.getD j (0, 0, 0)) →
      i = j := by
  intro i j hi hj he
  rw [List.getD_eq_getElem _ _ hi, List.getD_eq_getElem _ _ hj] at he
  have hi' : i < (verts.map keyFor).length := by simpa using hi
  have hj' : j < (verts.map keyFor).length := by simpa using hj
  apply (List.Nodup.getElem_inj_iff hnd).mp
  rw [List.getElem_map, List.getElem_map]
  exact he
  exact hj'
  exact hi'

/-- The invariant of the second (round-trip) extraction run relative to the
first run's vertex list `verts`: the rebuilt state has stored exactly one
vertex per distinct key of the already-encountered first-run indices `S`. -/
def CATrack (verts : List Vec3) (st : CAState) (S : Finset ℕ) : Prop :=
  CAInv st ∧ st.vertices.length = S.card ∧ S ⊆ Finset.range verts.length ∧
  ∀ i < verts.length,
    (keyFor (verts.getD i (0, 0, 0)) ∈ st.vertices.map keyFor ↔ i ∈ S)

theorem addVert_track (verts : List Vec3) (hnd : (verts.map keyFor).Nodup)
    (st : CAState) (S : Finset ℕ) (h : CATrack verts st S)
    (i : ℕ) (hi : i < verts.length) :
    CATrack verts (addVert st (getVert verts i)).2 (insert i S) := by
  obtain ⟨hInv, hcard, hSsub, hmem⟩ := h
  obtain ⟨hInv', hcases⟩ := addVert_spec st (getVert verts i) hInv
  rcases hcases with ⟨hk, he, -⟩ | ⟨hk, -, hv, -⟩
  · have hiS : i ∈ S := (hmem i hi).mp hk
    rw [he]
    have : insert i S = S := Finset.insert_eq_self.mpr hiS
    rw [this]
    exact ⟨hInv, hcard, hSsub, hmem⟩
  · have hiS : i ∉ S := fun hc => hk ((hmem i hi).mpr hc)
    refine ⟨hInv', ?_, ?_, ?_⟩
    · rw [hv]
      simp only [List.length_append, List.length_cons, List.length_nil]
      rw [Finset.card_insert_of_not_mem hiS, hcard]
    · exact Finset.insert_subset (Finset.mem_range.mpr hi) hSsub
    · intro j hj
      rw [hv]
      simp only [List.map_append, List.map_cons, List.map_nil, List.mem_append,
        List.mem_singleton, Finset.mem_insert]
      constructor
      · intro hc
        rcases hc with hc | hc
        · exact Or.inr ((hmem j hj).mp hc)
        · exact Or.inl (nodup_key_inj verts hnd j i hj hi hc)
      · intro hc
        rcases hc with rfl | hc
        · exact Or.inr rfl
        · exact Or.inl ((hmem j hj).mpr hc)

theorem caFold_track (verts : List Vec3) (hnd : (verts.map keyFor).Nodup)
    (ts : List (ℕ × ℕ × ℕ))
    (hts : ∀ tri ∈ ts, tri.1 < verts.length ∧ tri.2.1 < verts.length ∧
      tri.2.2 < verts.length) :
    ∀ (st : CAState) (faces0 : List (ℕ × ℕ × ℕ)) (S : Finset ℕ),
      CATrack verts st S →
      ∃ S' : Finset ℕ,
        CATrack verts (ts.foldl (caStep verts) (st, faces0)).1 S' ∧
        S ⊆ S' ∧
        ∀ tri ∈ ts, tri.1 ∈ S' ∧ tri.2.1 ∈ S' ∧ tri.2.2 ∈ S' := by
  induction ts with
  | nil =>
    intro st faces0 S h
    exact ⟨S, h, Finset.Subset.refl S, by simp⟩
  | cons tri ts ih =>
    intro st faces0 S h
    obtain ⟨ha, hb, hc⟩ := hts tri (List.mem_cons_self _ _)
    have h1 := addVert_track verts hnd st S h tri.1 ha
    have h2 := addVert_track verts hnd _ _ h1 tri.2.1 hb
    have h3 := addVert_track verts hnd _ _ h2 tri.2.2 hc
    have hts' : ∀ t ∈ ts, t.1 < verts.length ∧ t.2.1 < verts.length ∧
        t.2.2 < verts.length := fun t ht => hts t (List.mem_cons_of_mem _ ht)
    obtain ⟨S', hS', hsub, hmem⟩ := ih hts' _
      (faces0 ++ [((addVert st (getVert verts tri.1)).1,
        (addVert (addVert st (getVert verts tri.1)).2 (getVert verts tri.2.1)).1,
        (addVert (addVert (addVert st (getVert verts tri.1)).2
          (getVert verts tri.2.1)).2 (getVert verts tri.2.2)).1)])
      (insert tri.2.2 (insert tri.2.1 (insert tri.1 S))) h3
    have hstep : (List.foldl (caStep verts) (st, faces0) (tri :: ts)) =
        List.foldl (caStep verts) (caStep verts (st, faces0) tri) ts := by
      rw [List.foldl_cons]
    refine ⟨S', ?_, ?_, ?_⟩
    · rw [hstep]
      exact hS'
    · exact fun x hx => hsub (Finset.mem_insert_of_mem
        (Finset.mem_insert_of_mem (Finset.mem_insert_of_mem hx)))
    · intro t ht
      rcases List.mem_cons.mp ht with rfl | ht
      · exact ⟨hsub (Finset.mem_insert_of_mem (Finset.mem_insert_of_mem
            (Finset.mem_insert_self _ _))),
          hsub (Finset.mem_insert_of_mem (Finset.mem_insert_self _ _)),
          hsub (Finset.mem_insert_self _ _)⟩
      · exact hmem t ht

/-- C6: the convex-hull extractor merges exactly the vertices whose
coordinates quantize to the same rounded multiple of 1e-6 — its output
vertex list carries pairwise distinct quantization keys — and re-running
the extraction on its own output (vertex list plus face list) succeeds and
reproduces the same vertex count. -/
theorem C6_dedup_roundtrip :
    ∀ (g : Geometry) (pos : List Vec3) (args : ConvexArgs),
      g.position = some pos →
      geometryToConvexArgs g = .ok args →
      (∀ i j, i < args.vertices.length → j < args.vertices.length →
        keyFor (args.vertices.getD i (0, 0, 0)) =
          keyFor (args.vertices.getD j (0, 0, 0)) → i = j) ∧
      ∃ args2 : ConvexArgs,
        geometryToConvexArgs
          { position := some args.vertices
            index := some (facesToIndex args.faces) } = .ok args2 ∧
        args2.vertices.length = args.vertices.length := by
  intro g pos args hpos hok
  obtain ⟨hnd, hbnd, hcov⟩ := geometryToConvexArgs_inv g pos args hpos hok
  refine ⟨nodup_key_inj args.vertices hnd, ?_⟩
  have hlenflat : (facesToIndex args.faces).length = 3 * args.faces.length := by
    unfold facesToIndex
    apply length_flatMap_chunk3
    intro i
    rfl
  have hmod : (facesToIndex args.faces).length % 3 = 0 := by omega
  have hrun2 : geometryToConvexArgs
      { position := some args.vertices, index := some (facesToIndex args.faces) } =
      .ok { vertices := ((toTriples (facesToIndex args.faces)).foldl
              (caStep args.vertices) (⟨[], []⟩, [])).1.vertices
            faces := ((toTriples (facesToIndex args.faces)).foldl
              (caStep args.vertices) (⟨[], []⟩, [])).2 } := by
    unfold geometryToConvexArgs getIndexArray
    dsimp only
    rw [if_neg (fun hc => hc hmod)]
  have htr : toTriples (facesToIndex args.faces) = args.faces :=
    toTriples_facesToIndex args.faces
  rw [htr] at hrun2
  have htrack0 : CATrack args.vertices ⟨[], []⟩ ∅ := by
    refine ⟨caInv_empty, by simp, by simp, fun i hi => ?_⟩
    simp
  obtain ⟨S', ⟨hInv', hcard', hSsub', -⟩, -, hcomp⟩ :=
    caFold_track args.vertices hnd args.faces hbnd ⟨[], []⟩ [] ∅ htrack0
  have hSup : Finset.range args.vertices.length ⊆ S' := by
    intro j hj
    have hjlen : j < args.vertices.length := Finset.mem_range.mp hj
    obtain ⟨tri, htri, hor⟩ := hcov j hjlen
    obtain ⟨h1, h2, h3⟩ := hcomp tri htri
    rcases hor with rfl | rfl | rfl
    · exact h1
    · exact h2
    · exact h3
  have hSeq : S' = Finset.range args.vertices.length :=
    Finset.Subset.antisymm hSsub' hSup
  refine ⟨_, hrun2, ?_⟩
  rw [hcard', hSeq]
  simp

/-- A six-vertex triangle soup (two triangles sharing an edge, so 2 of the
6 stream vertices are duplicates). -/
def c6Pos : List Vec3 :=
  [(0, 0, 0), (1, 0, 0), (0, 1, 0), (0, 0, 0), (1, 0, 0), (0, 0, 1)]

/-- The deduplicated extraction of `c6Pos`. -/
def c6Args : ConvexArgs :=
  { vertices := [(0, 0, 0), (1, 0, 0), (0, 1, 0), (0, 0, 1)]
    faces := [(0, 1, 2), (0, 1, 3)] }

theorem c6_keys :
    keyFor (0, 0, 0) = (0, 0, 0) ∧ keyFor (1, 0, 0) = (1000000, 0, 0) ∧
    keyFor (0, 1, 0) = (0, 1000000, 0) ∧ keyFor (0, 0, 1) = (0, 0, 1000000) := by
  norm_num [keyFor, jround, eps6]

/-- Witness for `C6_dedup_roundtrip`: the soup `c6Pos` extracts to 4
deduplicated vertices, and re-running the extraction on that output keeps
the vertex count at 4. -/
theorem C6_witness :
    geometryToConvexArgs { position := some c6Pos, index := none } =
      .ok c6Args ∧
    ∃ args2 : ConvexArgs,
      geometryToConvexArgs
        { position := some c6Args.vertices
          index := some (facesToIndex c6Args.faces) } = .ok args2 ∧
      args2.vertices.length = c6Args.vertices.length := by
  obtain ⟨hk0, hk1, hk2, hk3⟩ := c6_keys
  have hrange : List.range c6Pos.length = [0, 1, 2, 3, 4, 5] := by decide
  have hrun : geometryToConvexArgs { position := some c6Pos, index := none } =
      .ok c6Args := by
    unfold geometryToConvexArgs getIndexArray
    dsimp only
    rw [hrange]
    norm_num [toTriples, caStep, addVert, assocFind, getVert, c6Pos, c6Args,
      hk0, hk1, hk2, hk3, List.getD_cons_zero, List.getD_cons_succ,
      -Prod.mk_zero_zero, -Prod.mk_one_one]
  exact ⟨hrun, (C6_dedup_roundtrip _ c6Pos c6Args rfl hrun).2⟩

/-! ## Invariants of the d10 grouper (claims C7 and C10) -/

theorem getD_set_self {α : Type} (l : List α) (i : ℕ) (v d : α)
    (h : i < l.length) : (l.set i v).getD i d = v := by
  rw [List.getD_eq_getElem _ _ (by simpa using h)]
  simp [List.getElem_set]

theorem getD_set_ne {α : Type} (l : List α) (i j : ℕ) (v d : α) (h : i ≠ j) :
    (l.set i v).getD j d = l.getD j d := by
  simp only [List.getD, List.get?_eq_getElem?]
  rw [List.getElem?_set_ne h]

theorem getD_replicate {α : Type} (n : ℕ) (v d : α) (i : ℕ) (h : i < n) :
    (List.replicate n v).getD i d = v := by
  rw [List.getD_eq_getElem _ _ (by simpa using h)]
  simp

theorem countP_congr_list (p q : ℕ → Bool) (l : List ℕ)
    (h : ∀ a ∈ l, p a = q a) : l.countP p = l.countP q := by
  induction l with
  | nil => rfl
  | cons a l ih =>
    rw [List.countP_cons, List.countP_cons, h a (by simp),
      ih (fun x hx => h x (by simp [hx]))]

theorem countP_flip (p q : ℕ → Bool) (l : List ℕ) (t : ℕ) (hnd : l.Nodup)
    (ht : t ∈ l) (hpt : p t = false) (hqt : q t = true)
    (hother : ∀ a ∈ l, a ≠ t → q a = p a) :
    l.countP q = l.countP p + 1 := by
  induction l with
  | nil => simp at ht
  | cons a l ih =>
    rw [List.countP_cons, List.countP_cons]
    by_cases hat : a = t
    · have heq : l.countP q = l.countP p := by
        apply countP_congr_list
        intro x hx
        have hxa : x ≠ t := fun hc =>
          (List.nodup_cons.mp hnd).1 (hat ▸ hc ▸ hx)
        exact hother x (by simp [hx]) hxa
      rw [hat, hpt, hqt, heq]
      simp
    · have hmem2 : t ∈ l := by
        rcases List.mem_cons.mp ht with h1 | h1
        · exact absurd h1.symm hat
        · exact h1
      rw [hother a (by simp) hat]
      have := ih (List.nodup_cons.mp hnd).2 hmem2
        (fun x hx hxt => hother x (by simp [hx]) hxt)
      omega

/-- The `triToGroup` entry of triangle `t` (`0xffff` = unassigned). -/
def TG (st : D10State) (t : ℕ) : ℕ := st.triToGroup.getD t 65535

/-- The count of already-assigned triangles. -/
def assignedCount (st : D10State) : ℕ :=
  (List.range 20).countP (fun t => TG st t ≠ 65535)

/-- The internal consistency invariant of the d10 grouper state (for the
only reachable triangle count, 20): `triToGroup` and the group buckets
record the same membership relation, every key maps to a real group, no
bucket repeats a triangle, and there are no more groups than assigned
triangles. -/
def D10Inv (st : D10State) : Prop :=
  st.triToGroup.length = 20 ∧
  st.groups.length ≤ assignedCount st ∧
  (∀ k gi, assocFind k st.keyToIndex = some gi → gi < st.groups.length) ∧
  (∀ t gi, gi < st.groups.length →
    (t ∈ st.groups.getD gi [] ↔ (t < 20 ∧ TG st t = gi))) ∧
  (∀ t, t < 20 → TG st t = 65535 ∨ TG st t < st.groups.length) ∧
  (∀ gi, gi < st.groups.length → (st.groups.getD gi []).Nodup)

theorem assignedCount_le (st : D10State) : assignedCount st ≤ 20 := by
  have := List.countP_le_length (l := List.range 20)
    (p := fun t => TG st t ≠ 65535)
  simpa [assignedCount] using this

theorem d10Inv_init :
    D10Inv ⟨[], [], List.replicate 20 65535⟩ := by
  refine ⟨by simp, by simp, ?_, ?_, ?_, ?_⟩
  · intro k gi h
    simp [assocFind] at h
  · intro t gi h
    simp at h
  · intro t ht
    left
    exact getD_replicate 20 65535 65535 t ht
  · intro gi h
    simp at h

theorem addTri_inv (st : D10State) (t : ℕ) (k : D10Key)
    (h : D10Inv st) (ht : t < 20) (hfresh : TG st t = 65535) :
    D10Inv (addTriToGroup st t k) ∧
    TG (addTriToGroup st t k) t < (addTriToGroup st t k).groups.length ∧
    (∀ t', t' ≠ t → TG (addTriToGroup st t k) t' = TG st t') ∧
    st.groups.length ≤ (addTriToGroup st t k).groups.length := by
  obtain ⟨hlen, hcnt, hkey, hmem, hrange, hnd⟩ := h
  have hglt : st.groups.length < 65535 := by
    have := assignedCount_le st
    omega
  have hcount' : ∀ st' : D10State, (∀ t', t' ≠ t → TG st' t' = TG st t') →
      TG st' t ≠ 65535 → assignedCount st' = assignedCount st + 1 := by
    intro st' hsame hasg
    apply countP_flip
    · exact List.nodup_range 20
    · simpa using ht
    · simp [hfresh]
    · simpa using hasg
    · intro a _ hat
      simp [hsame a hat]
  cases hfind : assocFind k st.keyToIndex with
  | some gi =>
    have hgi : gi < st.groups.length := hkey k gi hfind
    have hstep : addTriToGroup st t k =
        { st with groups := st.groups.set gi (st.groups.getD gi [] ++ [t])
                  triToGroup := st.triToGroup.set t (gi % 65536) } := by
      simp [addTriToGroup, hfind]
    have hmod : gi % 65536 = gi := Nat.mod_eq_of_lt (by omega)
    have htg_t : TG (addTriToGroup st t k) t = gi := by
      rw [hstep]
      show (st.triToGroup.set t (gi % 65536)).getD t 65535 = gi
      rw [getD_set_self _ _ _ _ (by omega), hmod]
    have htg_ne : ∀ t', t' ≠ t → TG (addTriToGroup st t k) t' = TG st t' := by
      intro t' hne
      rw [hstep]
      show (st.triToGroup.set t (gi % 65536)).getD t' 65535 = TG st t'
      rw [getD_set_ne _ _ _ _ _ (fun hc => hne hc.symm)]
      rfl
    have hglen : (addTriToGroup st t k).groups.length = st.groups.length := by
      rw [hstep]
      simp
    have hbucket_gi : (addTriToGroup st t k).groups.getD gi [] =
        st.groups.getD gi [] ++ [t] := by
      rw [hstep]
      show (st.groups.set gi _).getD gi [] = _
      rw [List.getD_eq_getElem _ _ (by simpa using hgi)]
      simp [List.getElem_set]
    have hbucket_ne : ∀ gj, gj ≠ gi → (addTriToGroup st t k).groups.getD gj [] =
        st.groups.getD gj [] := by
      intro gj hne
      rw [hstep]
      show (st.groups.set gi _).getD gj [] = _
      exact getD_set_ne _ _ _ _ _ (fun hc => hne hc.symm)
    have hnotin : ∀ gj, gj < st.groups.length → t ∉ st.groups.getD gj [] := by
      intro gj hgj hc
      have := (hmem t gj hgj).mp hc
      omega
    have hacnt := hcount' (addTriToGroup st t k) htg_ne (by rw [htg_t]; omega)
    refine ⟨⟨?_, ?_, ?_, ?_, ?_, ?_⟩, by rw [htg_t, hglen]; omega, htg_ne,
      by rw [hglen]⟩
    · rw [hstep]
      simpa using hlen
    · rw [hglen, hacnt]
      omega
    · intro k' gi' hf
      rw [hstep] at hf
      rw [hglen]
      exact hkey k' gi' hf
    · intro t' gj hgj
      rw [hglen] at hgj
      by_cases hgigj : gj = gi
      · subst hgigj
        rw [hbucket_gi]
        constructor
        · intro hin
          rcases List.mem_append.mp hin with hin | hin
          · have := (hmem t' gj hgj).mp hin
            have hne : t' ≠ t := by
              intro hc
              rw [hc] at this
              omega
            rw [htg_ne t' hne]
            exact this
          · rcases List.mem_singleton.mp hin with rfl
            exact ⟨ht, htg_t⟩
        · intro ⟨ht', htg⟩
          by_cases hne : t' = t
          · subst hne
            exact List.mem_append.mpr (Or.inr (List.mem_singleton.mpr rfl))
          · rw [htg_ne t' hne] at htg
            exact List.mem_append.mpr (Or.inl ((hmem t' gj hgj).mpr ⟨ht', htg⟩))
      · rw [hbucket_ne gj hgigj]
        constructor
        · intro hin
          have := (hmem t' gj hgj).mp hin
          have hne : t' ≠ t := by
            intro hc
            rw [hc] at this
            omega
          rw [htg_ne t' hne]
          exact this
        · intro ⟨ht', htg⟩
          by_cases hne : t' = t
          · subst hne
            rw [htg_t] at htg
            exact absurd htg.symm hgigj
          · rw [htg_ne t' hne] at htg
            exact (hmem t' gj hgj).mpr ⟨ht', htg⟩
    · intro t' ht'
      by_cases hne : t' = t
      · subst hne
        right
        rw [htg_t, hglen]
        exact hgi
      · rw [htg_ne t' hne, hglen]
        exact hrange t' ht'
    · intro gj hgj
      rw [hglen] at hgj
      by_cases hgigj : gj = gi
      · subst hgigj
        rw [hbucket_gi]
        rw [List.nodup_append]
        exact ⟨hnd gj hgj, List.nodup_singleton _, by simpa using hnotin gj hgj⟩
      · rw [hbucket_ne gj hgigj]
        exact hnd gj hgj
  | none =>
    have hstep : addTriToGroup st t k =
        { groups := st.groups ++ [[t]]
          keyToIndex := st.keyToIndex ++ [(k, st.groups.length)]
          triToGroup := st.triToGroup.set t (st.groups.length % 65536) } := by
      simp [addTriToGroup, hfind]
    have hmod : st.groups.length % 65536 = st.groups.length :=
      Nat.mod_eq_of_lt (by omega)
    have htg_t : TG (addTriToGroup st t k) t = st.groups.length := by
      rw [hstep]
      show (st.triToGroup.set t _).getD t 65535 = _
      rw [getD_set_self _ _ _ _ (by omega), hmod]
    have htg_ne : ∀ t', t' ≠ t → TG (addTriToGroup st t k) t' = TG st t' := by
      intro t' hne
      rw [hstep]
      show (st.triToGroup.set t _).getD t' 65535 = TG st t'
      rw [getD_set_ne _ _ _ _ _ (fun hc => hne hc.symm)]
      rfl
    have hglen : (addTriToGroup st t k).groups.length = st.groups.length + 1 := by
      rw [hstep]
      simp
    have hbucket_old : ∀ gj, gj < st.groups.length →
        (addTriToGroup st t k).groups.getD gj [] = st.groups.getD gj [] := by
      intro gj hgj
      rw [hstep]
      show (st.groups ++ [[t]]).getD gj [] = _
      exact List.getD_append _ _ _ _ hgj
    have hbucket_new : (addTriToGroup st t k).groups.getD st.groups.length [] = [t] := by
      rw [hstep]
      show (st.groups ++ [[t]]).getD st.groups.length [] = [t]
      rw [List.getD_append_right _ _ _ _ (le_refl _)]
      simp
    have hacnt := hcount' (addTriToGroup st t k) htg_ne (by rw [htg_t]; omega)
    refine ⟨⟨?_, ?_, ?_, ?_, ?_, ?_⟩, by rw [htg_t, hglen]; omega, htg_ne,
      by rw [hglen]; omega⟩
    · rw [hstep]
      simpa using hlen
    · rw [hglen, hacnt]
      omega
    · intro k' gi' hf
      rw [hstep] at hf
      rw [hglen]
      rw [assocFind_append] at hf
      cases hcase : assocFind k' st.keyToIndex with
      | some j =>
        rw [hcase] at hf
        injection hf with hj
        have := hkey k' j hcase
        omega
      | none =>
        rw [hcase] at hf
        simp only [assocFind] at hf
        by_cases hkk : k = k'
        · rw [if_pos hkk] at hf
          injection hf with hj
          omega
        · rw [if_neg hkk] at hf
          exact absurd hf (by simp)
    · intro t' gj hgj
      rw [hglen] at hgj
      by_cases hcase : gj < st.groups.length
      · rw [hbucket_old gj hcase]
        constructor
        · intro hin
          have := (hmem t' gj hcase).mp hin
          have hne : t' ≠ t := by
            intro hc
            rw [hc] at this
            omega
          rw [htg_ne t' hne]
          exact this
        · intro ⟨ht', htg⟩
          by_cases hne : t' = t
          · subst hne
            rw [htg_t] at htg
            omega
          · rw [htg_ne t' hne] at htg
            exact (hmem t' gj hcase).mpr ⟨ht', htg⟩
      · have hgjeq : gj = st.groups.length := by omega
        subst hgjeq
        rw [hbucket_new]
        constructor
        · intro hin
          rcases List.mem_singleton.mp hin with rfl
          exact ⟨ht, htg_t⟩
        · intro ⟨ht', htg⟩
          by_cases hne : t' = t
          · subst hne
            exact List.mem_singleton.mpr rfl
          · rw [htg_ne t' hne] at htg
            rcases hrange t' ht' with hr | hr
            · omega
            · omega
    · intro t' ht'
      by_cases hne : t' = t
      · subst hne
        right
        rw [htg_t, hglen]
        omega
      · rw [htg_ne t' hne, hglen]
        rcases hrange t' ht' with hr | hr
        · left; exact hr
        · right; omega
    · intro gj hgj
      rw [hglen] at hgj
      by_cases hcase : gj < st.groups.length
      · rw [hbucket_old gj hcase]
        exact hnd gj hcase
      · have hgjeq : gj = st.groups.length := by omega
        subst hgjeq
        rw [hbucket_new]
        exact List.nodup_singleton _

theorem pass1_run (idx : List ℕ) :
    ∀ (ts : List ℕ) (st : D10State),
      D10Inv st → (∀ t ∈ ts, t < 20) → ts.Nodup →
      (∀ t ∈ ts, TG st t = 65535) →
      D10Inv (ts.foldl (d10Pass1Step idx) st) ∧
      (∀ t', t' ∉ ts → TG (ts.foldl (d10Pass1Step idx) st) t' = TG st t') ∧
      (∀ t ∈ ts,
        (d10HasApex (triAt idx t) = true →
          TG (ts.foldl (d10Pass1Step idx) st) t ≠ 65535) ∧
        (d10HasApex (triAt idx t) = false →
          TG (ts.foldl (d10Pass1Step idx) st) t = 65535)) := by
  intro ts
  induction ts with
  | nil =>
    intro st hInv _ _ _
    exact ⟨hInv, fun t' _ => rfl, by simp⟩
  | cons t ts ih =>
    intro st hInv hts hnd hfresh
    have ht20 : t < 20 := hts t (List.mem_cons_self _ _)
    have htfresh : TG st t = 65535 := hfresh t (List.mem_cons_self _ _)
    have hnd' : ts.Nodup := (List.nodup_cons.mp hnd).2
    have htnotts : t ∉ ts := (List.nodup_cons.mp hnd).1
    have hts' : ∀ u ∈ ts, u < 20 := fun u hu => hts u (List.mem_cons_of_mem _ hu)
    rw [List.foldl_cons]
    cases happ : d10HasApex (triAt idx t) with
    | false =>
      have hstep : d10Pass1Step idx st t = st := by
        simp [d10Pass1Step, happ]
      rw [hstep]
      obtain ⟨hInv', hpres, hchar⟩ := ih st hInv hts' hnd'
        (fun u hu => hfresh u (List.mem_cons_of_mem _ hu))
      refine ⟨hInv', ?_, ?_⟩
      · intro t' ht'
        exact hpres t' (fun hc => ht' (List.mem_cons_of_mem _ hc))
      · intro u hu
        rcases List.mem_cons.mp hu with rfl | hu'
        · exact ⟨fun hc => absurd hc (by simp [happ]),
            fun _ => by rw [hpres u htnotts]; exact htfresh⟩
        · exact hchar u hu'
    | true =>
      have hstep : d10Pass1Step idx st t =
          addTriToGroup st t (d10Pass1Key (triAt idx t)) := by
        simp [d10Pass1Step, happ]
      rw [hstep]
      obtain ⟨hInv1, hassigned, hne1, -⟩ :=
        addTri_inv st t (d10Pass1Key (triAt idx t)) hInv ht20 htfresh
      obtain ⟨hInv', hpres, hchar⟩ := ih _ hInv1 hts' hnd'
        (fun u hu => by
          rw [hne1 u (fun hc => htnotts (hc ▸ hu))]
          exact hfresh u (List.mem_cons_of_mem _ hu))
      refine ⟨hInv', ?_, ?_⟩
      · intro t' ht'
        rw [hpres t' (fun hc => ht' (List.mem_cons_of_mem _ hc)),
          hne1 t' (fun hc => ht' (hc ▸ List.mem_cons_self _ _))]
      · intro u hu
        rcases List.mem_cons.mp hu with rfl | hu'
        · refine ⟨fun _ => ?_, fun hc => absurd hc (by simp [happ])⟩
          rw [hpres u htnotts]
          have h2 := hInv1.2.1
          have h3 := assignedCount_le (addTriToGroup st u (d10Pass1Key (triAt idx u)))
          omega
        · exact hchar u hu'

theorem pass2_run (idx : List ℕ) :
    ∀ (ts : List ℕ) (st : D10State),
      D10Inv st → (∀ t ∈ ts, t < 20) → ts.Nodup →
      (∀ e, ts.foldlM (d10Pass2Step idx) st = .error e →
        ∃ t ∈ ts, TG st t = 65535 ∧ d10Pass2Key (triAt idx t) = none) ∧
      (∀ st', ts.foldlM (d10Pass2Step idx) st = .ok st' →
        D10Inv st' ∧
        (∀ t ∈ ts, TG st' t ≠ 65535) ∧
        (∀ t', t' ∉ ts → TG st' t' = TG st t') ∧
        (∀ t ∈ ts, TG st t = 65535 → d10Pass2Key (triAt idx t) ≠ none)) := by
  intro ts
  induction ts with
  | nil =>
    intro st hInv _ _
    constructor
    · intro e he
      rw [List.foldlM_nil] at he
      simp only [pure, Except.pure] at he
      exact absurd he (by simp)
    · intro st' hs
      rw [List.foldlM_nil] at hs
      injection hs with hs
      subst hs
      exact ⟨hInv, by simp, fun t' _ => rfl, by simp⟩
  | cons t ts ih =>
    intro st hInv hts hnd
    have ht20 : t < 20 := hts t (List.mem_cons_self _ _)
    have hnd' : ts.Nodup := (List.nodup_cons.mp hnd).2
    have htnotts : t ∉ ts := (List.nodup_cons.mp hnd).1
    have hts' : ∀ u ∈ ts, u < 20 := fun u hu => hts u (List.mem_cons_of_mem _ hu)
    by_cases hskip : TG st t ≠ 65535
    · have hskip' : st.triToGroup.getD t 65535 ≠ 65535 := hskip
      have hfold : (t :: ts).foldlM (d10Pass2Step idx) st =
          ts.foldlM (d10Pass2Step idx) st := by
        rw [List.foldlM_cons]
        have hstep : d10Pass2Step idx st t = .ok st := by
          simp only [d10Pass2Step]
          rw [if_pos hskip']
        rw [hstep]
        rfl
      obtain ⟨iherr, ihok⟩ := ih st hInv hts' hnd'
      constructor
      · intro e he
        rw [hfold] at he
        obtain ⟨u, hu, hufresh, hukey⟩ := iherr e he
        exact ⟨u, List.mem_cons_of_mem _ hu, hufresh, hukey⟩
      · intro st' hs
        rw [hfold] at hs
        obtain ⟨hInv2, hall, hpres, hkeys⟩ := ihok st' hs
        refine ⟨hInv2, ?_, ?_, ?_⟩
        · intro u hu
          rcases List.mem_cons.mp hu with rfl | hu2
          · rw [hpres u htnotts]
            exact hskip
          · exact hall u hu2
        · intro t' ht'
          exact hpres t' (fun hc => ht' (List.mem_cons_of_mem _ hc))
        · intro u hu hufresh
          rcases List.mem_cons.mp hu with rfl | hu2
          · exact absurd hufresh hskip
          · exact hkeys u hu2 hufresh
    · push_neg at hskip
      have hskip' : ¬ st.triToGroup.getD t 65535 ≠ 65535 := fun hc => hc hskip
      cases hkey : d10Pass2Key (triAt idx t) with
      | none =>
        have hfold : (t :: ts).foldlM (d10Pass2Step idx) st =
            .error "TypeError: pairs[0] is undefined (no qualifying edge)" := by
          rw [List.foldlM_cons]
          have hstep : d10Pass2Step idx st t =
              .error "TypeError: pairs[0] is undefined (no qualifying edge)" := by
            simp only [d10Pass2Step]
            rw [if_neg hskip', hkey]
          rw [hstep]
          rfl
        constructor
        · intro e _
          exact ⟨t, List.mem_cons_self _ _, hskip, hkey⟩
        · intro st' hs
          rw [hfold] at hs
          exact absurd hs (by simp)
      | some k =>
        have hfold : (t :: ts).foldlM (d10Pass2Step idx) st =
            ts.foldlM (d10Pass2Step idx) (addTriToGroup st t k) := by
          rw [List.foldlM_cons]
          have hstep : d10Pass2Step idx st t = .ok (addTriToGroup st t k) := by
            simp only [d10Pass2Step]
            rw [if_neg hskip', hkey]
          rw [hstep]
          rfl
        obtain ⟨hInv1, hassigned, hne1, -⟩ := addTri_inv st t k hInv ht20 hskip
        obtain ⟨iherr, ihok⟩ := ih (addTriToGroup st t k) hInv1 hts' hnd'
        constructor
        · intro e he
          rw [hfold] at he
          obtain ⟨u, hu, hufresh, hukey⟩ := iherr e he
          refine ⟨u, List.mem_cons_of_mem _ hu, ?_, hukey⟩
          rw [← hne1 u (fun hc => htnotts (hc ▸ hu))]
          exact hufresh
        · intro st' hs
          rw [hfold] at hs
          obtain ⟨hInv2, hall, hpres, hkeys⟩ := ihok st' hs
          refine ⟨hInv2, ?_, ?_, ?_⟩
          · intro u hu
            rcases List.mem_cons.mp hu with rfl | hu2
            · rw [hpres u htnotts]
              have h2 := hInv1.2.1
              have h3 := assignedCount_le (addTriToGroup st u k)
              omega
            · exact hall u hu2
          · intro t' ht'
            rw [hpres t' (fun hc => ht' (List.mem_cons_of_mem _ hc)),
              hne1 t' (fun hc => ht' (hc ▸ List.mem_cons_self _ _))]
          · intro u hu hufresh
            rcases List.mem_cons.mp hu with rfl | hu2
            · rw [hkey]
              simp
            · apply hkeys u hu2
              rw [hne1 u (fun hc => htnotts (hc ▸ hu2))]
              exact hufresh

theorem d10Pass2Key_none_iff (tri : ℕ × ℕ × ℕ) :
    d10Pass2Key tri = none ↔ d10Pairs tri = [] := by
  unfold d10Pass2Key
  rw [Option.map_eq_none']
  exact List.head?_eq_none_iff

/-- The initial grouper state for the (only reachable) 20-triangle count. -/
def d10Init : D10State := ⟨[], [], List.replicate 20 65535⟩

theorem buildD10_reduce (g : Geometry) (idx : List ℕ)
    (hga : getIndexArray g = .ok idx) (hlen : idx.length / 3 = 20) :
    buildD10Groups_Teal g =
      match (List.range 20).foldlM (d10Pass2Step idx)
        ((List.range 20).foldl (d10Pass1Step idx) d10Init) with
      | .error e => .error e
      | .ok st2 => .ok (st2.groups, st2.triToGroup) := by
  unfold buildD10Groups_Teal d10Init
  rw [hga]
  dsimp only
  rw [hlen, if_neg (by omega)]

theorem buildD10_short (g : Geometry) (idx : List ℕ)
    (hga : getIndexArray g = .ok idx) (hlen : idx.length / 3 ≠ 20) :
    buildD10Groups_Teal g =
      .error "D10 should have 20 triangles (10 apex + 10 belt)." := by
  unfold buildD10Groups_Teal
  rw [hga]
  dsimp only
  rw [if_pos hlen]

theorem pass1_characterization (idx : List ℕ) :
    D10Inv ((List.range 20).foldl (d10Pass1Step idx) d10Init) ∧
    ∀ t < 20,
      (TG ((List.range 20).foldl (d10Pass1Step idx) d10Init) t ≠ 65535 ↔
        d10HasApex (triAt idx t) = true) := by
  obtain ⟨hInv, -, hchar⟩ := pass1_run idx (List.range 20) d10Init d10Inv_init
    (fun t ht => by simpa using ht) (List.nodup_range 20)
    (fun t ht => getD_replicate _ _ _ _ (by simpa using ht))
  refine ⟨hInv, fun t ht => ?_⟩
  obtain ⟨h1, h2⟩ := hchar t (by simpa using ht)
  cases happ : d10HasApex (triAt idx t) with
  | true => exact ⟨fun _ => rfl, fun _ => h1 happ⟩
  | false => exact ⟨fun hc => absurd (h2 happ) hc, fun hc => absurd hc (by simp)⟩

/-! ## Claim C7 -/

/-- C7 counterexample: the claim says the d10 grouper signals an error *iff*
the triangle count is not exactly 20, but on this 20-triangle mesh (all
indices 0) the grouper still errors — pass 2 finds no edge with ring-index
difference 2 mod 10 and the JS destructuring of `pairs[0]` throws. -/
theorem C7_counterexample :
    (List.replicate 60 0 : List ℕ).length / 3 = 20 ∧
    (buildD10Groups_Teal { position := some ([] : List Vec3)
                           index := some (List.replicate 60 0) }).toOption
      = none := by
  exact ⟨by decide, by decide⟩

/-- C7 as amended: (a) a triangle count other than 20 always raises the
dedicated error; (b) at triangle count 20 the grouper errors exactly when
some triangle that the apex pass left ungrouped has no edge with
ring-index difference 2 (or 8) mod 10; (c) the apex pass groups exactly
the triangles containing index 11 or 10; (d) on the canonical d10 soup
geometry every triangle not grouped by the apex pass has exactly one
qualifying edge, so (e) the canonical run never signals an error. -/
theorem C7_error_conditions :
    (∀ (g : Geometry) (idx : List ℕ), getIndexArray g = .ok idx →
      idx.length / 3 ≠ 20 →
      buildD10Groups_Teal g =
        .error "D10 should have 20 triangles (10 apex + 10 belt).") ∧
    (∀ (g : Geometry) (idx : List ℕ), getIndexArray g = .ok idx →
      idx.length / 3 = 20 →
      ((buildD10Groups_Teal g).toOption = none ↔
        ∃ t < 20, d10HasApex (triAt idx t) = false ∧
          d10Pairs (triAt idx t) = [])) ∧
    (∀ (idx : List ℕ), ∀ t < 20,
      (TG ((List.range 20).foldl (d10Pass1Step idx) d10Init) t ≠ 65535 ↔
        d10HasApex (triAt idx t) = true)) ∧
    (∀ t < 20, d10HasApex (triAt d10SoupIndex t) = false →
      (d10Pairs (triAt d10SoupIndex t)).length = 1) ∧
    (∀ pos : List Vec3,
      (buildD10Groups_Teal (d10Geom pos)).toOption.isSome = true) := by
  refine ⟨fun g idx hga hlen => buildD10_short g idx hga hlen,
    fun g idx hga hlen => ?_, fun idx => (pass1_characterization idx).2,
    by decide, fun pos => rfl⟩
  rw [buildD10_reduce g idx hga hlen]
  obtain ⟨hInv1, hchar⟩ := pass1_characterization idx
  obtain ⟨iherr, ihok⟩ := pass2_run idx (List.range 20)
    ((List.range 20).foldl (d10Pass1Step idx) d10Init) hInv1
    (fun t ht => by simpa using ht) (List.nodup_range 20)
  cases hfold : (List.range 20).foldlM (d10Pass2Step idx)
      ((List.range 20).foldl (d10Pass1Step idx) d10Init) with
  | error e =>
    obtain ⟨t, ht, hfresh, hkey⟩ := iherr e hfold
    have ht20 : t < 20 := by simpa using ht
    constructor
    · intro _
      refine ⟨t, ht20, ?_, (d10Pass2Key_none_iff _).mp hkey⟩
      cases happ : d10HasApex (triAt idx t) with
      | false => rfl
      | true =>
        exact absurd hfresh (((hchar t ht20).mpr happ))
    · intro _
      rfl
  | ok st2 =>
    constructor
    · intro h
      exact Option.noConfusion h
    · intro ⟨t, ht20, happ, hpairs⟩
      exfalso
      obtain ⟨-, -, -, hkeys⟩ := ihok st2 hfold
      have hfresh : TG ((List.range 20).foldl (d10Pass1Step idx) d10Init) t
          = 65535 := by
        by_contra hc
        have := (hchar t ht20).mp hc
        rw [happ] at this
        exact absurd this (by simp)
      exact hkeys t (by simpa using ht20) hfresh
        ((d10Pass2Key_none_iff _).mpr hpairs)

/-- Witness for `C7_error_conditions`: an empty mesh raises the
triangle-count error, and the all-zero 20-triangle mesh satisfies the
amended error condition. -/
theorem C7_witness :
    buildD10Groups_Teal { position := some ([] : List Vec3)
                          index := some ([] : List ℕ) } =
      .error "D10 should have 20 triangles (10 apex + 10 belt)." ∧
    (buildD10Groups_Teal { position := some ([] : List Vec3)
                           index := some (List.replicate 60 0) }).toOption
      = none := by
  constructor
  · exact C7_error_conditions.1
      { position := some ([] : List Vec3), index := some ([] : List ℕ) }
      [] rfl (by decide)
  · exact (C7_error_conditions.2.1
      { position := some ([] : List Vec3), index := some (List.replicate 60 0) }
      (List.replicate 60 0) rfl
      (by decide)).mpr ⟨0, by decide, by decide, by decide⟩

/-! ## The default face grouper (`src/convex.ts`, `buildFaceGroups`)

`buildFaceGroups` keys each triangle by its quantized unit normal
`((C − B) × (A − B)).normalize()` (round of each component divided by
`eps = 1e-3`), collects triangles into an insertion-ordered map of
groups, and writes the group index of every triangle into a
`Uint16Array`.  A group's `normal` and `center` fields play no role in
the grouping or in any claim, so a group is modelled by its `triIndices`
list.  The exact unit-normal components are irrational; the rounded
component `round((Nᵢ/√s)/eps)` (with `s = |N|²`) is computed exactly on
integers below. -/

/-- `⌊2·a·√m⌋`, computed exactly: `⌊√(4·a²·m)⌋ = Nat.sqrt (4·a²·m)` for
`a ≥ 0`, and for `a < 0` the negation, minus 1 unless `4·a²·m` is a
perfect square. -/
def floorTwoMulSqrt (a : ℤ) (m : ℕ) : ℤ :=
  let n := 4 * a.natAbs ^ 2 * m
  let r := Nat.sqrt n
  if 0 ≤ a then (r : ℤ)
  else if r * r = n then -(r : ℤ) else -(r : ℤ) - 1

/-- `⌊c/√s + 1/2⌋` for rational `c` and rational `s > 0`, exactly: with
`c = a/b` and `s = p/q` in lowest terms (`b, p, q > 0`) one has
`c/√s + 1/2 = (2·a·√(p·q) + b·p)/(2·b·p)`, and `⌊(y + n)/d⌋ =
(⌊y⌋ + n).fdiv d` for integer `n, d > 0`.  For `s ≤ 0` — the zero
normal, which `THREE.Vector3.normalize` leaves untouched by dividing by
`length() || 1` — the result is plain `⌊c + 1/2⌋`. -/
def jroundDivSqrt (c s : ℚ) : ℤ :=
  if s ≤ 0 then jround c
  else
    (floorTwoMulSqrt c.num ((s.num * (s.den : ℤ)).toNat)
        + (c.den : ℤ) * s.num).fdiv
      (2 * (c.den : ℤ) * s.num)

/-- The normal-quantization step `eps = 1e-3` (src/convex.ts line 72). -/
def eps3 : ℚ := 1 / 1000

/-- `keyFor` of `buildFaceGroups` (src/convex.ts line 73) applied to the
unnormalized cross product `N`, with `s = |N|²`: component `i` of the key
string is `round((Nᵢ/√s)/eps) = ⌊(Nᵢ/eps)/√s + 1/2⌋` (the integer triple
again models the string injectively). -/
def faceKeyFor (N : Vec3) : ℤ × ℤ × ℤ :=
  let s := vdot N N
  ( jroundDivSqrt (N.1 / eps3) s
  , jroundDivSqrt (N.2.1 / eps3) s
  , jroundDivSqrt (N.2.2 / eps3) s )

/-- The key of triangle `t` (src/convex.ts lines 79-84): the quantized
normal of `(C − B) × (A − B)` — no sign flipping. -/
def bfgTriKey (pos : List Vec3) (idx : List ℕ) (t : ℕ) : ℤ × ℤ × ℤ :=
  let tri := triAt idx t
  faceKeyFor (vcross (vsub (getVert pos tri.2.2) (getVert pos tri.2.1))
    (vsub (getVert pos tri.1) (getVert pos tri.2.1)))

/-- One iteration of the grouping loop (src/convex.ts lines 84-86): look
the key up in the insertion-ordered map, creating a fresh group for an
unseen key, then push `t` onto the group's `triIndices`. -/
def bucketsInsert {κ : Type} [DecidableEq κ] (bs : List (κ × List ℕ))
    (k : κ) (t : ℕ) : List (κ × List ℕ) :=
  if bs.any (fun b => decide (b.1 = k)) then
    bs.map (fun b => if b.1 = k then (b.1, b.2 ++ [t]) else b)
  else bs ++ [(k, [t])]

/-- The grouping loop of `buildFaceGroups` (src/convex.ts lines 78-87). -/
def bfgBuckets (pos : List Vec3) (idx : List ℕ) (triCount : ℕ) :
    List ((ℤ × ℤ × ℤ) × List ℕ) :=
  (List.range triCount).foldl
    (fun bs t => bucketsInsert bs (bfgTriKey pos idx t) t) []

/-- `groups.forEach((g,gi)=>g.triIndices.forEach(t=>triToGroup[t]=gi))`
(src/convex.ts line 107) over the zero-initialized
`Uint16Array(triCount)`: a typed-array store keeps the low 16 bits and is
a no-op out of bounds, exactly as `List.set` is. -/
def writeGroupIndices (triCount : ℕ) (groups : List (List ℕ)) : List ℕ :=
  (groups.foldl
    (fun p g => (p.1 + 1, g.foldl (fun a t => a.set t (p.1 % 65536)) p.2))
    (0, List.replicate triCount 0)).2

/-- `buildFaceGroups` (src/convex.ts lines 69-108), returning the groups'
`triIndices` lists in map-insertion order together with `triToGroup`. -/
def buildFaceGroups (g : Geometry) :
    Except String (List (List ℕ) × List ℕ) :=
  match g.position with
  | none => .error "Geometry has no position attribute."
  | some pos =>
    match getIndexArray g with
    | .error e => .error e
    | .ok index =>
      let triCount := index.length / 3
      let groups := (bfgBuckets pos index triCount).map Prod.snd
      .ok (groups, writeGroupIndices triCount groups)

/-- The total number of occurrences of `t` across all buckets. -/
def flatCount {κ : Type} (t : ℕ) (bs : List (κ × List ℕ)) : ℕ :=
  (bs.map (fun b => b.2.count t)).sum

theorem flatCount_cons {κ : Type} [DecidableEq κ] (b : κ × List ℕ)
    (bs : List (κ × List ℕ)) (t' : ℕ) :
    flatCount t' (b :: bs) = b.2.count t' + flatCount t' bs := by
  simp [flatCount]

theorem count_single (t t' : ℕ) :
    ([t] : List ℕ).count t' = if t' = t then 1 else 0 := by
  by_cases h : t' = t <;> simp [h, List.count_cons]

theorem flatCount_update {κ : Type} [DecidableEq κ] :
    ∀ (bs : List (κ × List ℕ)) (k : κ) (t t' : ℕ),
      (bs.map Prod.fst).Nodup → (∃ b ∈ bs, b.1 = k) →
      flatCount t'
          (bs.map (fun b => if b.1 = k then (b.1, b.2 ++ [t]) else b)) =
        flatCount t' bs + (if t' = t then 1 else 0) := by
  intro bs
  induction bs with
  | nil =>
    intro k t t' _ hex
    simp at hex
  | cons b bs ih =>
    intro k t t' hnd hex
    have hnd' : (bs.map Prod.fst).Nodup := (List.nodup_cons.mp hnd).2
    have hb : b.1 ∉ bs.map Prod.fst := by
      simpa using (List.nodup_cons.mp hnd).1
    by_cases hk : b.1 = k
    · rw [List.map_cons, if_pos hk]
      have hpt : ∀ b' ∈ bs,
          (if b'.1 = k then (b'.1, b'.2 ++ [t]) else b') = id b' := by
        intro b' hb'
        rw [if_neg, id]
        intro hc
        exact hb (by rw [hk, ← hc]; exact List.mem_map_of_mem Prod.fst hb')
      rw [List.map_congr_left hpt, List.map_id, flatCount_cons, flatCount_cons,
        List.count_append, count_single]
      by_cases h : t' = t <;> simp [h] <;> omega
    · rw [List.map_cons, if_neg hk, flatCount_cons, flatCount_cons]
      have hex' : ∃ b' ∈ bs, b'.1 = k := by
        rcases hex with ⟨b', hb', hbk⟩
        rcases List.mem_cons.mp hb' with h1 | h1
        · exact absurd (h1 ▸ hbk) hk
        · exact ⟨b', h1, hbk⟩
      rw [ih k t t' hnd' hex']
      omega

theorem flatCount_bucketsInsert {κ : Type} [DecidableEq κ]
    (bs : List (κ × List ℕ)) (k : κ) (t t' : ℕ)
    (hnd : (bs.map Prod.fst).Nodup) :
    flatCount t' (bucketsInsert bs k t) =
      flatCount t' bs + (if t' = t then 1 else 0) := by
  unfold bucketsInsert
  by_cases hex : ∃ b ∈ bs, b.1 = k
  · rw [if_pos (by simpa [List.any_eq_true] using hex)]
    exact flatCount_update bs k t t' hnd hex
  · rw [if_neg (by simpa [List.any_eq_true] using hex)]
    simp [flatCount, count_single]

theorem keys_bucketsInsert {κ : Type} [DecidableEq κ]
    (bs : List (κ × List ℕ)) (k : κ) (t : ℕ)
    (hnd : (bs.map Prod.fst).Nodup) :
    ((bucketsInsert bs k t).map Prod.fst).Nodup := by
  unfold bucketsInsert
  by_cases hex : ∃ b ∈ bs, b.1 = k
  · rw [if_pos (by simpa [List.any_eq_true] using hex)]
    have : (bs.map (fun b => if b.1 = k then (b.1, b.2 ++ [t]) else b)).map
        Prod.fst = bs.map Prod.fst := by
      rw [List.map_map]
      refine List.map_congr_left ?_
      intro b _
      by_cases h : b.1 = k <;> simp [h]
    rw [this]
    exact hnd
  · rw [if_neg (by simpa [List.any_eq_true] using hex)]
    rw [List.map_append]
    rw [List.nodup_append]
    refine ⟨hnd, by simp, ?_⟩
    intro x hx hx2
    simp at hx2
    rcases List.mem_map.mp hx with ⟨b, hb, hbx⟩
    exact hex ⟨b, hb, by rw [hbx, hx2]⟩

theorem reflect_bucketsInsert {κ : Type} [DecidableEq κ] (f : ℕ → κ)
    (bs : List (κ × List ℕ)) (t : ℕ)
    (href : ∀ b ∈ bs, ∀ x ∈ b.2, b.1 = f x) :
    ∀ b ∈ bucketsInsert bs (f t) t, ∀ x ∈ b.2, b.1 = f x := by
  unfold bucketsInsert
  by_cases hex : ∃ b ∈ bs, b.1 = f t
  · rw [if_pos (by simpa [List.any_eq_true] using hex)]
    intro b hb x hx
    rcases List.mem_map.mp hb with ⟨b0, hb0, hbb⟩
    by_cases h : b0.1 = f t
    · rw [if_pos h] at hbb
      rw [← hbb] at hx ⊢
      rcases List.mem_append.mp hx with h1 | h1
      · exact href b0 hb0 x h1
      · simp at h1
        rw [h1]
        exact h
    · rw [if_neg h] at hbb
      rw [← hbb] at hx ⊢
      exact href b0 hb0 x hx
  · rw [if_neg (by simpa [List.any_eq_true] using hex)]
    intro b hb x hx
    rcases List.mem_append.mp hb with h1 | h1
    · exact href b h1 x hx
    · simp at h1
      subst h1
      simp at hx
      rw [hx]

theorem bucketsFold_inv {κ : Type} [DecidableEq κ] (f : ℕ → κ) :
    ∀ (ts : List ℕ) (bs : List (κ × List ℕ)),
      ts.Nodup →
      (bs.map Prod.fst).Nodup →
      (∀ b ∈ bs, ∀ x ∈ b.2, b.1 = f x) →
      (((ts.foldl (fun bs t => bucketsInsert bs (f t) t) bs).map
          Prod.fst).Nodup ∧
       (∀ b ∈ ts.foldl (fun bs t => bucketsInsert bs (f t) t) bs,
          ∀ x ∈ b.2, b.1 = f x) ∧
       (∀ t', flatCount t'
            (ts.foldl (fun bs t => bucketsInsert bs (f t) t) bs) =
          flatCount t' bs + (if t' ∈ ts then 1 else 0))) := by
  intro ts
  induction ts with
  | nil =>
    intro bs _ h1 h2
    exact ⟨h1, h2, by simp⟩
  | cons t ts ih =>
    intro bs hndts h1 h2
    have htn : t ∉ ts := (List.nodup_cons.mp hndts).1
    rw [List.foldl_cons]
    obtain ⟨a1, a2, a3⟩ := ih (bucketsInsert bs (f t) t)
      (List.nodup_cons.mp hndts).2
      (keys_bucketsInsert bs (f t) t h1)
      (reflect_bucketsInsert f bs t h2)
    refine ⟨a1, a2, ?_⟩
    intro t'
    rw [a3 t', flatCount_bucketsInsert bs (f t) t t' h1]
    by_cases h : t' = t
    · subst h
      simp [htn]
    · simp [h, List.mem_cons]

theorem bfgBuckets_spec (pos : List Vec3) (idx : List ℕ) (n : ℕ) :
    ((bfgBuckets pos idx n).map Prod.fst).Nodup ∧
    (∀ b ∈ bfgBuckets pos idx n, ∀ x ∈ b.2, b.1 = bfgTriKey pos idx x) ∧
    (∀ t', flatCount t' (bfgBuckets pos idx n) =
      if t' < n then 1 else 0) := by
  obtain ⟨a1, a2, a3⟩ := bucketsFold_inv (bfgTriKey pos idx) (List.range n)
    [] (List.nodup_range n) (by simp) (by simp)
  refine ⟨a1, a2, fun t' => ?_⟩
  have := a3 t'
  simpa [bfgBuckets, flatCount, List.mem_range] using this

theorem sum_eq_one_unique : ∀ (l : List ℕ), l.sum = 1 →
    ∃! i, i < l.length ∧ l.getD i 0 ≠ 0 := by
  intro l
  induction l with
  | nil =>
    intro h
    simp at h
  | cons a l ih =>
    intro h
    rw [List.sum_cons] at h
    by_cases ha : a = 0
    · subst ha
      rw [Nat.zero_add] at h
      obtain ⟨i, ⟨hi, hne⟩, hu⟩ := ih h
      refine ⟨i + 1, ⟨by simpa using Nat.succ_lt_succ hi, by simpa using hne⟩,
        ?_⟩
      intro j hj
      obtain ⟨hjl, hjne⟩ := hj
      cases j with
      | zero => simp at hjne
      | succ j' =>
        have := hu j' ⟨Nat.lt_of_succ_lt_succ hjl, by simpa using hjne⟩
        omega
    · have ha1 : a = 1 ∧ l.sum = 0 := by omega
      refine ⟨0, ⟨Nat.succ_pos _, by simp [ha1.1]⟩, ?_⟩
      intro j hj
      obtain ⟨hjl, hjne⟩ := hj
      cases j with
      | zero => rfl
      | succ j' =>
        exfalso
        have hz : l.getD j' 0 = 0 := by
          rcases Nat.lt_or_ge j' l.length with hlt | hge
          · rw [List.getD_eq_getElem l 0 hlt]
            exact (List.sum_eq_zero_iff.mp ha1.2) _ (List.getElem_mem hlt)
          · exact List.getD_eq_default _ _ hge
        exact hjne (by simpa using hz)

theorem getD_map_count (gs : List (List ℕ)) (t gi : ℕ)
    (h : gi < gs.length) :
    (gs.map (fun l => l.count t)).getD gi 0 = (gs.getD gi []).count t := by
  rw [List.getD_eq_getElem _ _ (by simpa using h),
    List.getD_eq_getElem _ _ h, List.getElem_map]

theorem count_le_flat (gs : List (List ℕ)) (t gi : ℕ)
    (h : gi < gs.length) :
    (gs.getD gi []).count t ≤ (gs.map (fun l => l.count t)).sum := by
  rw [← getD_map_count gs t gi h]
  have hmem : (gs.map (fun l => l.count t)).getD gi 0 ∈
      gs.map (fun l => l.count t) := by
    rw [List.getD_eq_getElem _ _ (by simpa using h)]
    exact List.getElem_mem (by simpa using h)
  exact List.single_le_sum (fun x _ => Nat.zero_le x) _ hmem

theorem writeOne_spec : ∀ (l : List ℕ) (v : ℕ) (arr : List ℕ),
    ((l.foldl (fun a t => a.set t v) arr).length = arr.length) ∧
    (∀ t, t ∉ l →
      (l.foldl (fun a t => a.set t v) arr).getD t 0 = arr.getD t 0) ∧
    (∀ t ∈ l, t < arr.length →
      (l.foldl (fun a t => a.set t v) arr).getD t 0 = v) := by
  intro l
  induction l with
  | nil =>
    intro v arr
    exact ⟨rfl, fun t _ => rfl, by simp⟩
  | cons hd tl ih =>
    intro v arr
    rw [List.foldl_cons]
    obtain ⟨i1, i2, i3⟩ := ih v (arr.set hd v)
    refine ⟨by rw [i1]; simp, ?_, ?_⟩
    · intro t ht
      have ht1 : t ≠ hd := fun hc => ht (hc ▸ List.mem_cons_self _ _)
      have ht2 : t ∉ tl := fun hc => ht (List.mem_cons_of_mem _ hc)
      rw [i2 t ht2, getD_set_ne arr hd t v 0 (Ne.symm ht1)]
    · intro t ht htlen
      by_cases hmem : t ∈ tl
      · exact i3 t hmem (by simpa using htlen)
      · have hth : t = hd := by
          rcases List.mem_cons.mp ht with h1 | h1
          · exact h1
          · exact absurd h1 hmem
        subst hth
        rw [i2 t hmem, getD_set_self arr t v 0 htlen]

/-- The tail of `writeGroupIndices` starting from group index `g0` over an
arbitrary array (generalization used for the induction). -/
def writeGroupsFrom (g0 : ℕ) (arr : List ℕ) (gs : List (List ℕ)) :
    List ℕ :=
  (gs.foldl
    (fun p g => (p.1 + 1, g.foldl (fun a t => a.set t (p.1 % 65536)) p.2))
    (g0, arr)).2

theorem writeGroupIndices_eq (n : ℕ) (gs : List (List ℕ)) :
    writeGroupIndices n gs = writeGroupsFrom 0 (List.replicate n 0) gs := rfl

theorem writeGroupsFrom_spec : ∀ (gs : List (List ℕ)) (g0 : ℕ)
    (arr : List ℕ),
    (writeGroupsFrom g0 arr gs).length = arr.length ∧
    (∀ t, (∀ l ∈ gs, t ∉ l) →
      (writeGroupsFrom g0 arr gs).getD t 0 = arr.getD t 0) ∧
    (∀ gi, gi < gs.length → ∀ t ∈ gs.getD gi [], t < arr.length →
      (∀ gj, gi < gj → gj < gs.length → t ∉ gs.getD gj []) →
      (writeGroupsFrom g0 arr gs).getD t 0 = (g0 + gi) % 65536) := by
  intro gs
  induction gs with
  | nil =>
    intro g0 arr
    refine ⟨rfl, fun t _ => rfl, ?_⟩
    intro gi h
    simp at h
  | cons g gs ih =>
    intro g0 arr
    have hstep : writeGroupsFrom g0 arr (g :: gs) =
        writeGroupsFrom (g0 + 1)
          (g.foldl (fun a t => a.set t (g0 % 65536)) arr) gs := rfl
    obtain ⟨w1, w2, w3⟩ := writeOne_spec g (g0 % 65536) arr
    obtain ⟨i1, i2, i3⟩ := ih (g0 + 1)
      (g.foldl (fun a t => a.set t (g0 % 65536)) arr)
    refine ⟨?_, ?_, ?_⟩
    · rw [hstep, i1, w1]
    · intro t ht
      rw [hstep, i2 t (fun l hl => ht l (List.mem_cons_of_mem _ hl)),
        w2 t (ht g (List.mem_cons_self _ _))]
    · intro gi hgi t htmem htlen hlater
      cases gi with
      | zero =>
        have htg : t ∈ g := by simpa using htmem
        have hnot : ∀ l ∈ gs, t ∉ l := by
          intro l hl
          rcases List.mem_iff_getElem.mp hl with ⟨j, hjl, hgl⟩
          have := hlater (j + 1) (Nat.succ_pos _)
            (by simpa using Nat.succ_lt_succ hjl)
          rw [List.getD_cons_succ] at this
          rw [List.getD_eq_getElem _ _ hjl, hgl] at this
          exact this
        rw [hstep, i2 t hnot, w3 t htg htlen]
        simp
      | succ gi' =>
        have htmem' : t ∈ gs.getD gi' [] := by simpa using htmem
        have hlater' : ∀ gj, gi' < gj → gj < gs.length →
            t ∉ gs.getD gj [] := by
          intro gj h1 h2
          have := hlater (gj + 1) (Nat.succ_lt_succ h1)
            (by simpa using Nat.succ_lt_succ h2)
          rwa [List.getD_cons_succ] at this
        have hlen' : t <
            (g.foldl (fun a t => a.set t (g0 % 65536)) arr).length := by
          rw [w1]
          exact htlen
        rw [hstep, i3 gi' (by simpa using Nat.lt_of_succ_lt_succ hgi) t
          htmem' hlen' hlater']
        congr 1
        omega

theorem buildFaceGroups_partition (g : Geometry) (pos : List Vec3)
    (idx : List ℕ) (groups : List (List ℕ)) (tg : List ℕ)
    (hpos : g.position = some pos) (hidx : getIndexArray g = .ok idx)
    (hrun : buildFaceGroups g = .ok (groups, tg))
    (hcap : groups.length ≤ 65536) :
    (∀ t, t < idx.length / 3 →
      ∃! gi, gi < groups.length ∧ t ∈ groups.getD gi []) ∧
    (∀ gi, gi < groups.length →
      ∀ t ∈ groups.getD gi [], t < idx.length / 3) ∧
    tg.length = idx.length / 3 ∧
    (∀ t, t < idx.length / 3 → ∀ gi, gi < groups.length →
      (t ∈ groups.getD gi [] ↔ tg.getD t 0 = gi)) := by
  have hred : buildFaceGroups g =
      .ok ((bfgBuckets pos idx (idx.length / 3)).map Prod.snd,
        writeGroupIndices (idx.length / 3)
          ((bfgBuckets pos idx (idx.length / 3)).map Prod.snd)) := by
    simp [buildFaceGroups, hpos, hidx]
  rw [hred] at hrun
  injection hrun with hrun
  rw [Prod.mk.injEq] at hrun
  obtain ⟨hg, ht⟩ := hrun
  subst hg
  subst ht
  obtain ⟨hknd, href, hcnt⟩ := bfgBuckets_spec pos idx (idx.length / 3)
  have hsumeq : ∀ t',
      (((bfgBuckets pos idx (idx.length / 3)).map Prod.snd).map
        (fun l => l.count t')).sum =
      flatCount t' (bfgBuckets pos idx (idx.length / 3)) := by
    intro t'
    rw [flatCount, List.map_map]
    rfl
  have hEU : ∀ t, t < idx.length / 3 →
      ∃! gi, gi < ((bfgBuckets pos idx (idx.length / 3)).map
          Prod.snd).length ∧
        t ∈ ((bfgBuckets pos idx (idx.length / 3)).map Prod.snd).getD
          gi [] := by
    intro t htn
    have hs : ((((bfgBuckets pos idx (idx.length / 3)).map Prod.snd)).map
        (fun l => l.count t)).sum = 1 := by
      rw [hsumeq, hcnt t, if_pos htn]
    obtain ⟨i, ⟨hi, hne⟩, hu⟩ := sum_eq_one_unique _ hs
    have hi' : i < ((bfgBuckets pos idx (idx.length / 3)).map
        Prod.snd).length := by
      simpa using hi
    refine ⟨i, ⟨hi', ?_⟩, ?_⟩
    · rw [getD_map_count _ t i hi'] at hne
      by_contra hcm
      exact hne (List.count_eq_zero.mpr hcm)
    · intro j hj
      obtain ⟨hjl, hjm⟩ := hj
      apply hu
      refine ⟨by simpa using hjl, ?_⟩
      rw [getD_map_count _ t j hjl]
      exact fun hc => (List.count_eq_zero.mp hc) hjm
  have hbound : ∀ gi, gi < ((bfgBuckets pos idx (idx.length / 3)).map
      Prod.snd).length →
      ∀ t ∈ ((bfgBuckets pos idx (idx.length / 3)).map Prod.snd).getD
        gi [], t < idx.length / 3 := by
    intro gi hgi t htm
    by_contra hc
    have h0 : flatCount t (bfgBuckets pos idx (idx.length / 3)) = 0 := by
      rw [hcnt t, if_neg hc]
    have hle := count_le_flat _ t gi hgi
    rw [hsumeq t, h0] at hle
    have := Nat.le_zero.mp hle
    exact (List.count_eq_zero.mp this) htm
  obtain ⟨hw1, hw2, hw3⟩ := writeGroupsFrom_spec
    ((bfgBuckets pos idx (idx.length / 3)).map Prod.snd) 0
    (List.replicate (idx.length / 3) 0)
  have htgval : ∀ t, t < idx.length / 3 →
      ∀ gi, gi < ((bfgBuckets pos idx (idx.length / 3)).map
        Prod.snd).length →
      t ∈ ((bfgBuckets pos idx (idx.length / 3)).map Prod.snd).getD
        gi [] →
      (writeGroupIndices (idx.length / 3)
        ((bfgBuckets pos idx (idx.length / 3)).map Prod.snd)).getD t 0 =
        gi := by
    intro t htn gi hgi htm
    obtain ⟨gi0, ⟨hgi0, hm0⟩, hu0⟩ := hEU t htn
    have hlater : ∀ gj, gi < gj →
        gj < ((bfgBuckets pos idx (idx.length / 3)).map Prod.snd).length →
        t ∉ ((bfgBuckets pos idx (idx.length / 3)).map Prod.snd).getD
          gj [] := by
      intro gj h1 h2 hjm
      have he1 := hu0 gi ⟨hgi, htm⟩
      have he2 := hu0 gj ⟨h2, hjm⟩
      omega
    rw [writeGroupIndices_eq]
    rw [hw3 gi hgi t htm (by simpa using htn) hlater]
    rw [Nat.zero_add]
    exact Nat.mod_eq_of_lt (lt_of_lt_of_le hgi hcap)
  refine ⟨hEU, hbound, ?_, ?_⟩
  · rw [writeGroupIndices_eq, hw1]
    simp
  · intro t htn gi hgi
    constructor
    · exact htgval t htn gi hgi
    · intro hteq
      obtain ⟨gi0, ⟨hgi0, hm0⟩, hu0⟩ := hEU t htn
      have := htgval t htn gi0 hgi0 hm0
      rw [this] at hteq
      rw [hteq] at hm0
      exact hm0

theorem buildD10_partition (g : Geometry) (idx : List ℕ)
    (groups : List (List ℕ)) (tg : List ℕ)
    (hidx : getIndexArray g = .ok idx) (hlen : idx.length / 3 = 20)
    (hrun : buildD10Groups_Teal g = .ok (groups, tg)) :
    (∀ t, t < 20 → ∃! gi, gi < groups.length ∧ t ∈ groups.getD gi []) ∧
    (∀ gi, gi < groups.length → ∀ t ∈ groups.getD gi [], t < 20) ∧
    tg.length = 20 ∧
    (∀ t, t < 20 → ∀ gi, gi < groups.length →
      (t ∈ groups.getD gi [] ↔ tg.getD t 65535 = gi)) := by
  rw [buildD10_reduce g idx hidx hlen] at hrun
  obtain ⟨hInv1, -⟩ := pass1_characterization idx
  obtain ⟨-, ihok⟩ := pass2_run idx (List.range 20)
    ((List.range 20).foldl (d10Pass1Step idx) d10Init) hInv1
    (fun t ht => by simpa using ht) (List.nodup_range 20)
  cases hfold : (List.range 20).foldlM (d10Pass2Step idx)
      ((List.range 20).foldl (d10Pass1Step idx) d10Init) with
  | error e =>
    rw [hfold] at hrun
    exact absurd hrun (by simp)
  | ok st2 =>
    rw [hfold] at hrun
    dsimp only at hrun
    injection hrun with hrun
    rw [Prod.mk.injEq] at hrun
    obtain ⟨hg, ht⟩ := hrun
    subst hg
    subst ht
    obtain ⟨hInv2, hall, -, -⟩ := ihok st2 hfold
    obtain ⟨hlen2, -, -, hmem, hrange, -⟩ := hInv2
    have htg : ∀ t, TG st2 t = st2.triToGroup.getD t 65535 := fun t => rfl
    refine ⟨?_, ?_, hlen2, ?_⟩
    · intro t ht20
      have hasg : TG st2 t ≠ 65535 := hall t (by simpa using ht20)
      have hlt : TG st2 t < st2.groups.length := by
        rcases hrange t ht20 with h | h
        · exact absurd h hasg
        · exact h
      refine ⟨TG st2 t, ⟨hlt, (hmem t (TG st2 t) hlt).mpr ⟨ht20, rfl⟩⟩, ?_⟩
      intro gj hj
      obtain ⟨hjl, hjm⟩ := hj
      exact ((hmem t gj hjl).mp hjm).2.symm
    · intro gi hgi t htm
      exact ((hmem t gi hgi).mp htm).1
    · intro t ht20 gi hgi
      rw [hmem t gi hgi]
      constructor
      · intro h
        exact h.2
      · intro h
        exact ⟨ht20, h⟩

/-- C10: on success, each face-grouping builder returns a partition: every
triangle index below the triangle count lies in exactly one group, every
listed triangle index is below the triangle count (so the groups are
pairwise disjoint and cover all triangles), and `triToGroup` maps `t` to
`gi` exactly when `t` appears in group `gi` — for `buildFaceGroups`
whenever the group count fits the `Uint16Array` (it never exceeds the
triangle count), and for the d10 grouper unconditionally (at its only
accepted triangle count, 20, with sentinel default `0xffff`). -/
theorem C10_partition :
    (∀ (g : Geometry) (pos : List Vec3) (idx : List ℕ)
        (groups : List (List ℕ)) (tg : List ℕ),
      g.position = some pos → getIndexArray g = .ok idx →
      buildFaceGroups g = .ok (groups, tg) → groups.length ≤ 65536 →
      ((∀ t, t < idx.length / 3 →
          ∃! gi, gi < groups.length ∧ t ∈ groups.getD gi []) ∧
        (∀ gi, gi < groups.length →
          ∀ t ∈ groups.getD gi [], t < idx.length / 3) ∧
        tg.length = idx.length / 3 ∧
        (∀ t, t < idx.length / 3 → ∀ gi, gi < groups.length →
          (t ∈ groups.getD gi [] ↔ tg.getD t 0 = gi)))) ∧
    (∀ (g : Geometry) (idx : List ℕ) (groups : List (List ℕ))
        (tg : List ℕ),
      getIndexArray g = .ok idx → idx.length / 3 = 20 →
      buildD10Groups_Teal g = .ok (groups, tg) →
      ((∀ t, t < 20 →
          ∃! gi, gi < groups.length ∧ t ∈ groups.getD gi []) ∧
        (∀ gi, gi < groups.length → ∀ t ∈ groups.getD gi [], t < 20) ∧
        tg.length = 20 ∧
        (∀ t, t < 20 → ∀ gi, gi < groups.length →
          (t ∈ groups.getD gi [] ↔ tg.getD t 65535 = gi)))) :=
  ⟨fun g pos idx groups tg h1 h2 h3 h4 =>
      buildFaceGroups_partition g pos idx groups tg h1 h2 h3 h4,
    fun g idx groups tg h1 h2 h3 =>
      buildD10_partition g idx groups tg h1 h2 h3⟩

/-- A concrete 6-vertex non-indexed mesh (two degenerate triangles, both
with the zero normal) on which `buildFaceGroups` is evaluated. -/
def c10Pos : List Vec3 :=
  [(0, 0, 0), (0, 0, 0), (0, 0, 0), (0, 0, 0), (0, 0, 0), (0, 0, 0)]

/-- The `triToGroup` array the d10 grouper computes for the canonical soup
(group indices into `d10SoupGroups`). -/
def d10SoupTG : List ℕ :=
  [1, 2, 3, 0, 4, 5, 6, 7, 8, 9, 1, 2, 3, 10, 4, 5, 6, 7, 8, 9]

/-- Witness for `C10_partition`: both parts applied at concrete meshes —
`buildFaceGroups` on the two-triangle mesh `c10Pos` (one group `[0, 1]`),
and the d10 grouper on the canonical soup. -/
theorem C10_witness :
    (∀ t, t < (List.range 6).length / 3 →
      ∃! gi, gi < ([[0, 1]] : List (List ℕ)).length ∧
        t ∈ ([[0, 1]] : List (List ℕ)).getD gi []) ∧
    (∀ t, t < 20 →
      ∃! gi, gi < d10SoupGroups.length ∧
        t ∈ d10SoupGroups.getD gi []) := by
  have hbfg : buildFaceGroups { position := some c10Pos, index := none } =
      .ok ([[0, 1]], [0, 0]) := by
    norm_num [buildFaceGroups, getIndexArray, c10Pos, bfgBuckets,
      bucketsInsert, bfgTriKey, faceKeyFor, jroundDivSqrt, jround, eps3,
      triAt, getVert, vcross, vsub, vdot, writeGroupIndices,
      List.range_succ]
    decide
  have hd10 : buildD10Groups_Teal (d10Geom []) =
      .ok (d10SoupGroups, d10SoupTG) := by
    have h : (buildD10Groups_Teal (d10Geom [])).toOption =
        some (d10SoupGroups, d10SoupTG) := by decide
    cases he : buildD10Groups_Teal (d10Geom []) with
    | error e =>
      rw [he] at h
      exact absurd h (by simp [Except.toOption])
    | ok v =>
      rw [he] at h
      simp only [Except.toOption, Option.some.injEq] at h
      rw [h]
  constructor
  · exact (C10_partition.1 { position := some c10Pos, index := none }
      c10Pos (List.range 6) [[0, 1]] [0, 0] rfl rfl hbfg (by decide)).1
  · exact (C10_partition.2 (d10Geom []) d10SoupIndex d10SoupGroups
      d10SoupTG rfl (by decide) hd10).1
